import Mathlib

/-!
Shallow embedding of the aggregation core of the `bookkeep` repository
(`src/calculate.rs` together with the data model of `src/types.rs`), and
proofs of the specified properties of `calculate`.

Modelling conventions:
- `rust_decimal::Decimal` amounts are embedded as `ℚ` (exact arithmetic;
  addition, comparison and the zero test used by the code behave identically).
- `time::Date` is embedded as a (year, month, day) record ordered
  lexicographically, which is order-isomorphic to the source ordering.
- `BTreeSet<Transfer>` is embedded as a strictly sorted list together with an
  ordered insertion that reports an exact duplicate by returning `none`,
  mirroring `BTreeSet::insert` returning `false`.
- `BTreeMap<String, SummedAccount>` is embedded as an association list; the
  code never iterates these maps, it only looks accounts up by name.
- the `panic!` aborts of the source become the error cases of an `Except`.
-/

namespace Bookkeep

/-- Exact addition of amounts.  This is rational addition written out through
`mkRat` so that it evaluates by kernel reduction; `decAdd_eq` below proves it
equal to `ℚ` addition, which the abstract proofs use. -/
def decAdd (a b : ℚ) : ℚ :=
  mkRat (a.num * (b.den : Int) + b.num * (a.den : Int)) (a.den * b.den)

/-- Calendar date; ordered lexicographically by (year, month, day), which is
order-isomorphic to the ordering of `time::Date` used by the source. -/
structure Date where
  year : Int
  month : Nat
  day : Nat
deriving DecidableEq, Repr

/-- The closed account classification of `types.rs`. -/
inductive AccountType where
  | Income
  | Debtor
  | Asset
  | Creditor
  | Expense
  | YearlyResult
deriving DecidableEq, Repr

/-- `RealTransaction` of `types.rs`: a dereferenced transaction carrying its
index within its grouping.  The comment map rides along unread. -/
structure RealTransaction where
  name : String
  date : Date
  index : Nat
  transfers : List (String × ℚ)
  comments : List (String × String)
deriving DecidableEq, Repr

/-- `RealGrouping` of `types.rs`: a named period of transactions. -/
structure RealGrouping where
  name : String
  transactions : List RealTransaction
deriving DecidableEq, Repr

/-- `RealBookkeeping` of `types.rs`: the validated ledger handed to
`calculate`.  The `accounts` set is used only for membership tests. -/
structure RealBookkeeping where
  name : String
  accounts : List String
  account_types : List (AccountType × List String)
  account_sums : List (String × List String)
  groupings : List RealGrouping
deriving DecidableEq, Repr

/-- Little-endian decimal digits of `n`, with explicit structural fuel so that
the definition reduces in the kernel.  Called with fuel `n` it produces the
digits of `n` (least significant first). -/
def digitsRev : Nat → Nat → List Char
  | _, 0 => []
  | 0, _ => []
  | fuel+1, n => Nat.digitChar (n % 10) :: digitsRev fuel (n / 10)

/-- Decimal rendering of a natural number, as produced by the `{}` format of
the source for `usize` indices. -/
def natStr (n : Nat) : String :=
  if n = 0 then String.mk [Char.ofNat 48] else String.mk ((digitsRev n n).reverse)

/-- The globally unique transfer identifier of `calculate.rs`:
`format!("{}[{}][{}]", grouping.name, transaction.index, i)`. -/
def mkUid (g : String) (idx i : Nat) : String :=
  g ++ String.mk [Char.ofNat 91] ++ natStr idx ++ String.mk [Char.ofNat 93, Char.ofNat 91]
    ++ natStr i ++ String.mk [Char.ofNat 93]

/-- `Transfer` of `calculate.rs`: a realized transaction leg.  Field order
matters: the derived ordering compares fields in declaration order. -/
structure Transfer where
  date : Date
  name : String
  amount : ℚ
  unique_id : String
  related_transfers : List (String × ℚ)
deriving DecidableEq, Repr

/-- Comparison on `Nat` mirroring the derived `Ord`. -/
def cmpNat (a b : Nat) : Ordering :=
  if a < b then .lt else if b < a then .gt else .eq

/-- Comparison on `Int` mirroring the derived `Ord`. -/
def cmpInt (a b : Int) : Ordering :=
  if a < b then .lt else if b < a then .gt else .eq

/-- Numeric comparison on amounts, mirroring `Ord` for `Decimal`. -/
def cmpQ (a b : ℚ) : Ordering :=
  if a < b then .lt else if b < a then .gt else .eq

/-- Comparison of characters by code point; for UTF-8 encoded strings the
byte-wise ordering of Rust agrees with the code-point ordering. -/
def cmpChar (a b : Char) : Ordering := cmpNat a.toNat b.toNat

/-- Lexicographic comparison of lists, as derived for `Vec`. -/
def cmpList (cmp : α → α → Ordering) : List α → List α → Ordering
  | [], [] => .eq
  | [], _ :: _ => .lt
  | _ :: _, [] => .gt
  | a :: as, b :: bs => (cmp a b).then (cmpList cmp as bs)

/-- Lexicographic string comparison (Rust `Ord` for `String`). -/
def cmpString (a b : String) : Ordering := cmpList cmpChar a.data b.data

/-- Lexicographic pair comparison, as derived for tuples. -/
def cmpProd (f : α → α → Ordering) (g : β → β → Ordering) (a b : α × β) : Ordering :=
  (f a.1 b.1).then (g a.2 b.2)

/-- Date comparison: lexicographic on (year, month, day). -/
def cmpDate (a b : Date) : Ordering :=
  (cmpInt a.year b.year).then ((cmpNat a.month b.month).then (cmpNat a.day b.day))

/-- Comparison of leg lists (`Vec<(String, Decimal)>`). -/
def cmpLegs : List (String × ℚ) → List (String × ℚ) → Ordering :=
  cmpList (cmpProd cmpString cmpQ)

/-- The derived `Ord` of `Transfer`: lexicographic over all five fields in
declaration order (date, name, amount, unique id, related transfers). -/
def cmpTransfer (a b : Transfer) : Ordering :=
  (cmpDate a.date b.date).then
    ((cmpString a.name b.name).then
      ((cmpQ a.amount b.amount).then
        ((cmpString a.unique_id b.unique_id).then
          (cmpLegs a.related_transfers b.related_transfers))))

/-- The four-field key ordering named by the specification:
(date, name, amount, unique id). -/
def cmpKey (a b : Transfer) : Ordering :=
  (cmpDate a.date b.date).then
    ((cmpString a.name b.name).then
      ((cmpQ a.amount b.amount).then (cmpString a.unique_id b.unique_id)))

/-- Ordered insertion into the strictly sorted transfer list embedding
`BTreeSet<Transfer>`.  Returns `none` exactly when an element comparing equal
is already present — the case where `BTreeSet::insert` returns `false` and the
source aborts with its duplicate-transaction failure. -/
def insertTransfer (t : Transfer) : List Transfer → Option (List Transfer)
  | [] => some [t]
  | x :: xs =>
    match cmpTransfer t x with
    | .lt => some (t :: x :: xs)
    | .eq => none
    | .gt =>
      match insertTransfer t xs with
      | none => none
      | some ys => some (x :: ys)

/-- `SummedAccount` of `calculate.rs`: one account's aggregate at one scope. -/
structure SummedAccount where
  name : String
  sum : ℚ
  transfers : List Transfer
deriving DecidableEq, Repr

/-- `SummedGrouping` of `calculate.rs`: the two rollups of one scope. -/
structure SummedGrouping where
  account_types : List (AccountType × ℚ × List SummedAccount)
  account_sums : List (String × ℚ × List SummedAccount)
deriving DecidableEq, Repr

/-- `SummedBookkeeping` of `calculate.rs`: the final result. -/
structure SummedBookkeeping where
  name : String
  total : SummedGrouping
  groupings : List (String × SummedGrouping)
deriving DecidableEq, Repr

/-- The abort conditions of `calculate`, by their `panic!` sites. -/
inductive CalcError where
  | UndeclaredAccount (transaction : String) (account : String)
  | UnbalancedTransaction (transaction : String) (sum : ℚ)
  | DuplicateTransfer (transaction : RealTransaction)
deriving DecidableEq, Repr

/-- The accumulator maps (`BTreeMap<String, SummedAccount>`), embedded as
association lists: the code only ever looks accounts up by name. -/
abbrev AccMap := List (String × SummedAccount)

/-- Association-list lookup for the accumulator maps. -/
def lookupAccount (m : AccMap) (a : String) : Option SummedAccount :=
  match m with
  | [] => none
  | (k, sa) :: rest => if k = a then some sa else lookupAccount rest a

/-- The `entry(account).and_modify(..).or_insert(..)` step of `calculate`:
add `amount` to the account's running total and insert the transfer into its
ordered set, creating the `SummedAccount` on first use.  Returns `none` when
the transfer is an exact duplicate of one already present. -/
def applyLeg (m : AccMap) (account : String) (amount : ℚ) (t : Transfer) : Option AccMap :=
  match m with
  | [] => some [(account, { name := account, sum := amount, transfers := [t] })]
  | (k, sa) :: rest =>
    if k = account then
      match insertTransfer t sa.transfers with
      | none => none
      | some ts => some ((k, { sa with sum := decAdd sa.sum amount, transfers := ts }) :: rest)
    else
      match applyLeg rest account amount t with
      | none => none
      | some m2 => some ((k, sa) :: m2)

/-- The `Transfer` the leg loop of `calculate` realizes from leg `l` at
enumeration index `i` of transaction `t` in the grouping named `g`: the
transaction's name and date, the leg's amount, the formatted unique id, and
the transaction's whole leg list as related transfers. -/
def legTransfer (g : String) (t : RealTransaction) (i : Nat) (l : String × ℚ) : Transfer :=
  { date := t.date
    name := t.name
    amount := l.2
    unique_id := mkUid g t.index i
    related_transfers := t.transfers }

/-- The inner leg loop of `calculate` (`for (i, (account, amount)) in
transaction.transfers.iter().enumerate()`): accumulate the transaction sum,
check the account is declared, and apply the realized transfer to the global
and the grouping-local accumulator in that order. -/
def processLegsFrom (decl : List String) (g : String) (t : RealTransaction) :
    Nat → List (String × ℚ) → ℚ → AccMap → AccMap → Except CalcError (ℚ × AccMap × AccMap)
  | _, [], sum, total, loc => .ok (sum, total, loc)
  | i, (account, amount) :: rest, sum, total, loc =>
    let sum2 := decAdd sum amount
    if account ∈ decl then
      let tr : Transfer := legTransfer g t i (account, amount)
      match applyLeg total account amount tr with
      | none => .error (.DuplicateTransfer t)
      | some total2 =>
        match applyLeg loc account amount tr with
        | none => .error (.DuplicateTransfer t)
        | some loc2 => processLegsFrom decl g t (i+1) rest sum2 total2 loc2
    else .error (.UndeclaredAccount t.name account)

/-- One transaction of the grouping loop: process its legs, then reject the
transaction if its legs did not sum to zero. -/
def processTransaction (decl : List String) (g : String) (total loc : AccMap)
    (t : RealTransaction) : Except CalcError (AccMap × AccMap) :=
  match processLegsFrom decl g t 0 t.transfers 0 total loc with
  | .error e => .error e
  | .ok (sum, total2, loc2) =>
    if sum ≠ 0 then .error (.UnbalancedTransaction t.name sum) else .ok (total2, loc2)

/-- The transaction loop of one grouping. -/
def processTransactions (decl : List String) (g : String) :
    AccMap → AccMap → List RealTransaction → Except CalcError (AccMap × AccMap)
  | total, loc, [] => .ok (total, loc)
  | total, loc, t :: ts =>
    match processTransaction decl g total loc t with
    | .error e => .error e
    | .ok (total2, loc2) => processTransactions decl g total2 loc2 ts

/-- One category rollup loop of `calculate`: fold the declared member accounts
of one category over the given accumulator, summing the totals of the accounts
present and collecting their `SummedAccount`s in order.  This is the loop body
the source repeats for account sums and account types, locally and globally. -/
def sumCategory (m : AccMap) (accts : List String) : ℚ × List SummedAccount :=
  accts.foldl
    (fun acc account =>
      match lookupAccount m account with
      | some sa => (decAdd acc.1 sa.sum, acc.2 ++ [sa])
      | none => acc)
    (0, [])

/-- Rollup of a whole declared category table over one accumulator. -/
def rollup (m : AccMap) (tbl : List (α × List String)) : List (α × ℚ × List SummedAccount) :=
  tbl.map (fun p => (p.1, (sumCategory m p.2).1, (sumCategory m p.2).2))

/-- The grouping loop of `calculate`: each grouping is processed into a fresh
local accumulator and the persistent global one, then rolled up, and the pair
(grouping name, rollup) is appended to the output list in order. -/
def processGroupings (data : RealBookkeeping) :
    AccMap → List (String × SummedGrouping) → List RealGrouping →
    Except CalcError (AccMap × List (String × SummedGrouping))
  | total, acc, [] => .ok (total, acc)
  | total, acc, g :: gs =>
    match processTransactions data.accounts g.name total [] g.transactions with
    | .error e => .error e
    | .ok (total2, loc) =>
      let sg : SummedGrouping :=
        { account_types := rollup loc data.account_types
          account_sums := rollup loc data.account_sums }
      processGroupings data total2 (acc ++ [(g.name, sg)]) gs

/-- `calculate` of `calculate.rs`: the whole aggregation pass.  Aborting
`panic!` calls of the source are the `Except.error` results. -/
def calculate (data : RealBookkeeping) : Except CalcError SummedBookkeeping :=
  match processGroupings data [] [] data.groupings with
  | .error e => .error e
  | .ok (total_accounts, summed_periods) =>
    .ok
      { name := data.name
        total :=
          { account_types := rollup total_accounts data.account_types
            account_sums := rollup total_accounts data.account_sums }
        groupings := summed_periods }

/-! ## Derived observations on the embedding -/

instance instDecEqExcept {ε α : Type} [DecidableEq ε] [DecidableEq α] :
    DecidableEq (Except ε α) := fun a b =>
  match a, b with
  | .ok x, .ok y => if h : x = y then .isTrue (by rw [h]) else .isFalse (by simp [h])
  | .error x, .error y => if h : x = y then .isTrue (by rw [h]) else .isFalse (by simp [h])
  | .ok _, .error _ => .isFalse (by simp)
  | .error _, .ok _ => .isFalse (by simp)

/-- The running sum a transaction's legs produce in the leg loop of
`calculate` (a left fold of exact additions starting from zero). -/
def computedSum (legs : List (String × ℚ)) : ℚ :=
  legs.foldl (fun q l => decAdd q l.2) 0

/-- The transfer set recorded for an account in an accumulator (empty when the
account has no activity). -/
def transfersOf (m : AccMap) (a : String) : List Transfer :=
  match lookupAccount m a with
  | some sa => sa.transfers
  | none => []

/-- The running total recorded for an account in an accumulator (zero when the
account has no activity). -/
def sumOf (m : AccMap) (a : String) : ℚ :=
  match lookupAccount m a with
  | some sa => sa.sum
  | none => 0

/-- All member `SummedAccount`s appearing in one `SummedGrouping`. -/
def groupingAccounts (sg : SummedGrouping) : List SummedAccount :=
  (sg.account_types.map (fun e => e.2.2)).flatten ++ (sg.account_sums.map (fun e => e.2.2)).flatten

/-- Every `SummedAccount` appearing anywhere in a result: in the global rollup
or in any period's rollup. -/
def allSummedAccounts (res : SummedBookkeeping) : List SummedAccount :=
  groupingAccounts res.total ++ (res.groupings.map (fun p => groupingAccounts p.2)).flatten

/-- Whether a run failed with the unbalanced-transaction abort. -/
def isUnbalancedError (r : Except CalcError SummedBookkeeping) : Bool :=
  match r with
  | .error (.UnbalancedTransaction _ _) => true
  | _ => false

/-- Whether a run failed with the undeclared-account abort. -/
def isUndeclaredError (r : Except CalcError SummedBookkeeping) : Bool :=
  match r with
  | .error (.UndeclaredAccount _ _) => true
  | _ => false

/-- Every leg of every transaction references a declared account. -/
def LegsDeclared (data : RealBookkeeping) : Prop :=
  ∀ g ∈ data.groupings, ∀ t ∈ g.transactions, ∀ l ∈ t.transfers, l.1 ∈ data.accounts

instance (data : RealBookkeeping) : Decidable (LegsDeclared data) := by
  unfold LegsDeclared; infer_instance

/-- Every transaction's legs sum to exactly zero. -/
def AllBalanced (data : RealBookkeeping) : Prop :=
  ∀ g ∈ data.groupings, ∀ t ∈ g.transactions, computedSum t.transfers = 0

instance (data : RealBookkeeping) : Decidable (AllBalanced data) := by
  unfold AllBalanced; infer_instance

/-! ## Concrete ledgers used by the scenario and counterexample theorems -/

/-- A fixed date for the concrete ledgers. -/
def d0 : Date := { year := 2024, month := 3, day := 1 }

/-- Scenario 1 ledger: one period `Jan`, one transaction moving 100 from
`income` to `money`, accounts `money : Asset` and `income : Income`, no named
categories. -/
def c2data : RealBookkeeping :=
  { name := ("run")
    accounts := [("income"), ("money")]
    account_types := [(AccountType.Asset, [("money")]), (AccountType.Income, [("income")])]
    account_sums := []
    groupings :=
      [ { name := ("Jan")
          transactions :=
            [ { name := ("t1")
                date := d0
                index := 0
                transfers := [(("money"), (100 : ℚ)), (("income"), (-100 : ℚ))]
                comments := [] } ] } ] }

/-- The transfer realized from the `money:+100` leg of scenario 1. -/
def c2moneyTransfer : Transfer :=
  { date := d0, name := ("t1"), amount := 100, unique_id := mkUid ("Jan") 0 0
    related_transfers := [(("money"), (100 : ℚ)), (("income"), (-100 : ℚ))] }

/-- The transfer realized from the `income:-100` leg of scenario 1. -/
def c2incomeTransfer : Transfer :=
  { date := d0, name := ("t1"), amount := -100, unique_id := mkUid ("Jan") 0 1
    related_transfers := [(("money"), (100 : ℚ)), (("income"), (-100 : ℚ))] }

/-- The `money` aggregate of scenario 1. -/
def c2money : SummedAccount := { name := ("money"), sum := 100, transfers := [c2moneyTransfer] }

/-- The `income` aggregate of scenario 1. -/
def c2income : SummedAccount := { name := ("income"), sum := -100, transfers := [c2incomeTransfer] }

/-- The rollup of scenario 1 (identical locally and globally). -/
def c2sg : SummedGrouping :=
  { account_types := [(AccountType.Asset, 100, [c2money]), (AccountType.Income, -100, [c2income])]
    account_sums := [] }

/-- The full expected result of scenario 1. -/
def c2expected : SummedBookkeeping :=
  { name := ("run"), total := c2sg, groupings := [(("Jan"), c2sg)] }

/-- The global accumulator scenario 1 produces. -/
def c2totalMap : AccMap := [(("money"), c2money), (("income"), c2income)]

/-- First transaction of the duplicate-key ledger: legs `a:+5, b:-5`. -/
def c7txnA : RealTransaction :=
  { name := ("t"), date := d0, index := 0
    transfers := [(("a"), (5 : ℚ)), (("b"), (-5 : ℚ))], comments := [] }

/-- Second transaction of the duplicate-key ledger: same name, date and index,
but legs `a:+5, c:-5`, so its realized `a` leg agrees with the first
transaction's in date, name, amount and unique id while differing in its
related transfers. -/
def c7txnB : RealTransaction :=
  { name := ("t"), date := d0, index := 0
    transfers := [(("a"), (5 : ℚ)), (("c"), (-5 : ℚ))], comments := [] }

/-- A ledger whose two transactions share the same grouping name, transaction
index, name, date and first-leg amount, so the two realized `a` transfers have
an identical (date, name, amount, unique id) key. -/
def c7data : RealBookkeeping :=
  { name := ("run7"), accounts := [("a"), ("b"), ("c")]
    account_types := [(AccountType.Asset, [("a"), ("b"), ("c")])]
    account_sums := []
    groupings := [ { name := ("G"), transactions := [c7txnA, c7txnB] } ] }

/-- The realized `a:+5` transfer of `c7txnA`. -/
def c7trA1 : Transfer :=
  { date := d0, name := ("t"), amount := 5, unique_id := mkUid ("G") 0 0
    related_transfers := [(("a"), (5 : ℚ)), (("b"), (-5 : ℚ))] }

/-- The realized `a:+5` transfer of `c7txnB`. -/
def c7trB1 : Transfer :=
  { date := d0, name := ("t"), amount := 5, unique_id := mkUid ("G") 0 0
    related_transfers := [(("a"), (5 : ℚ)), (("c"), (-5 : ℚ))] }

/-- The realized `b:-5` transfer of `c7txnA`. -/
def c7trA2 : Transfer :=
  { date := d0, name := ("t"), amount := -5, unique_id := mkUid ("G") 0 1
    related_transfers := [(("a"), (5 : ℚ)), (("b"), (-5 : ℚ))] }

/-- The realized `c:-5` transfer of `c7txnB`. -/
def c7trB2 : Transfer :=
  { date := d0, name := ("t"), amount := -5, unique_id := mkUid ("G") 0 1
    related_transfers := [(("a"), (5 : ℚ)), (("c"), (-5 : ℚ))] }

/-- Aggregate of account `a` in the duplicate-key ledger: it holds both
key-identical transfers. -/
def c7accA : SummedAccount := { name := ("a"), sum := 10, transfers := [c7trA1, c7trB1] }

/-- Aggregate of account `b` in the duplicate-key ledger. -/
def c7accB : SummedAccount := { name := ("b"), sum := -5, transfers := [c7trA2] }

/-- Aggregate of account `c` in the duplicate-key ledger. -/
def c7accC : SummedAccount := { name := ("c"), sum := -5, transfers := [c7trB2] }

/-- The rollup of the duplicate-key ledger. -/
def c7sg : SummedGrouping :=
  { account_types := [(AccountType.Asset, 0, [c7accA, c7accB, c7accC])]
    account_sums := [] }

/-- The full (successful) result of the duplicate-key ledger. -/
def c7expected : SummedBookkeeping :=
  { name := ("run7"), total := c7sg, groupings := [(("G"), c7sg)] }

/-- A balanced transaction used twice (same index) to force a duplicate. -/
def c4t1 : RealTransaction :=
  { name := ("t"), date := d0, index := 0
    transfers := [(("a"), (1 : ℚ)), (("b"), (-1 : ℚ))], comments := [] }

/-- An unbalanced transaction (its single leg sums to 5). -/
def c4t3 : RealTransaction :=
  { name := ("u"), date := d0, index := 1
    transfers := [(("a"), (5 : ℚ))], comments := [] }

/-- A ledger with all leg accounts declared that contains the unbalanced
transaction `c4t3`, but whose first two transactions are exact duplicates, so
the duplicate abort fires before the balance check of `c4t3` is reached. -/
def c4data : RealBookkeeping :=
  { name := ("run4"), accounts := [("a"), ("b")]
    account_types := [(AccountType.Asset, [("a"), ("b")])]
    account_sums := []
    groupings := [ { name := ("G"), transactions := [c4t1, c4t1, c4t3] } ] }

/-- An unbalanced transaction whose legs are all declared. -/
def c5t1 : RealTransaction :=
  { name := ("t"), date := d0, index := 0
    transfers := [(("a"), (5 : ℚ))], comments := [] }

/-- A transaction with a leg naming the undeclared account `x`. -/
def c5t2 : RealTransaction :=
  { name := ("u"), date := d0, index := 1
    transfers := [(("x"), (1 : ℚ)), (("a"), (-1 : ℚ))], comments := [] }

/-- A ledger containing a leg that names an undeclared account (`x` in
`c5t2`), but whose earlier transaction `c5t1` is unbalanced, so the
unbalanced abort fires before the undeclared account is ever looked at. -/
def c5data : RealBookkeeping :=
  { name := ("run5"), accounts := [("a"), ("b")]
    account_types := [(AccountType.Asset, [("a"), ("b")])]
    account_sums := []
    groupings := [ { name := ("G"), transactions := [c5t1, c5t2] } ] }

/-- The four-field key (date, name, amount, unique id) of a transfer. -/
def key4 (t : Transfer) : Date × String × ℚ × String :=
  (t.date, t.name, t.amount, t.unique_id)

/-- Strict ordering of transfers under the full five-field comparison. -/
def transferLt (a b : Transfer) : Prop := cmpTransfer a b = Ordering.lt

/-- Strict ordering of transfers under the four-field key comparison of the
specification. -/
def keyLt (a b : Transfer) : Prop := cmpKey a b = Ordering.lt

/-- The sum of the amounts of a list of transfers. -/
def amountsSum (l : List Transfer) : ℚ := (l.map Transfer.amount).sum

/-- The total of a leg list (exact rational sum). -/
def legsTotal (legs : List (String × ℚ)) : ℚ := (legs.map Prod.snd).sum

/-- The part of a leg list's total that belongs to one account. -/
def legsFor (legs : List (String × ℚ)) (A : String) : ℚ :=
  ((legs.filter (fun l => l.1 = A)).map Prod.snd).sum

/-- The part of a transaction list's total that belongs to one account. -/
def txnsFor (ts : List RealTransaction) (A : String) : ℚ :=
  (ts.map (fun t => legsFor t.transfers A)).sum

/-- The realized transfers of one transaction, in leg order. -/
def txnTransfers (g : String) (t : RealTransaction) : List Transfer :=
  (t.transfers.enumFrom 0).map (fun p => legTransfer g t p.1 p.2)

/-- `u` is the transfer realized for account `A` from some leg of some
transaction of the list, in the grouping named `g`. -/
def IsOccTransfer (g : String) (ts : List RealTransaction) (A : String) (u : Transfer) : Prop :=
  ∃ t ∈ ts, ∃ p ∈ t.transfers.enumFrom 0, p.2.1 = A ∧ u = legTransfer g t p.1 p.2

/-- `u` is the transfer realized for account `A` anywhere in the ledger. -/
def IsLedgerOccTransfer (data : RealBookkeeping) (A : String) (u : Transfer) : Prop :=
  ∃ g ∈ data.groupings, IsOccTransfer g.name g.transactions A u

/-- The realized transfers of a transaction list, in processing order. -/
def txnsTransfers (g : String) (ts : List RealTransaction) : List Transfer :=
  (ts.map (txnTransfers g)).flatten

/-- The accounts named by the legs of a transaction list. -/
def legAccounts (ts : List RealTransaction) : List String :=
  (ts.map (fun t => t.transfers.map Prod.fst)).flatten

/-- The accounts named by any leg of a grouping list. -/
def groupingsAccounts (gs : List RealGrouping) : List String :=
  (gs.map (fun g => legAccounts g.transactions)).flatten

/-- The accounts named by any leg of the ledger. -/
def ledgerAccounts (data : RealBookkeeping) : List String :=
  groupingsAccounts data.groupings

/-- Decodes a little-endian decimal digit list back to the number; the left
inverse of the digit rendering, used to prove the unique ids injective. -/
def ofRevDigits : List Char → Nat
  | [] => 0
  | c :: cs => (c.toNat - 48) + 10 * ofRevDigits cs

/-- The realized transfers of the whole ledger, in processing order. -/
def ledgerTransfers (data : RealBookkeeping) : List Transfer :=
  (data.groupings.map (fun g => txnsTransfers g.name g.transactions)).flatten

/-- Checks that the transactions of a list carry consecutive indices starting
at `i` — the invariant `realize` establishes with `enumerate()`. -/
def idxFrom : Nat → List RealTransaction → Bool
  | _, [] => true
  | i, t :: ts => t.index = i && idxFrom (i+1) ts

/-- The ledger carries globally unique transfer identities: grouping names are
pairwise distinct and every transaction's index is its position in its
grouping, as the loader guarantees. -/
def UniqueIds (data : RealBookkeeping) : Prop :=
  (data.groupings.map RealGrouping.name).Nodup ∧
  ∀ g ∈ data.groupings, idxFrom 0 g.transactions = true

instance (data : RealBookkeeping) : Decidable (UniqueIds data) := by
  unfold UniqueIds; infer_instance

/-- A valid ledger: all legs declared, all transactions balanced, and unique
transfer identities — the input contract of `calculate`. -/
def ValidLedger (data : RealBookkeeping) : Prop :=
  LegsDeclared data ∧ AllBalanced data ∧ UniqueIds data

instance (data : RealBookkeeping) : Decidable (ValidLedger data) := by
  unfold ValidLedger; infer_instance

/-- The part of a grouping list's total that belongs to one account. -/
def groupingsFor (gs : List RealGrouping) (A : String) : ℚ :=
  (gs.map (fun g => txnsFor g.transactions A)).sum

/-- The `SummedGrouping` the grouping loop builds from one accumulator. -/
def groupingRollup (data : RealBookkeeping) (m : AccMap) : SummedGrouping :=
  { account_types := rollup m data.account_types
    account_sums := rollup m data.account_sums }

/-- The running total a period-local run records for one account: process the
grouping's transactions alone, from fresh accumulators, and read off the
account's sum.  This is the period-local quantity `calculate` feeds into the
period's rollup. -/
def localTotal (decl : List String) (g : RealGrouping) (A : String) : ℚ :=
  match processTransactions decl g.name [] [] g.transactions with
  | .ok (_, loc) => sumOf loc A
  | .error _ => 0

/-- Well-formedness of an accumulator map, as maintained by `calculate`:
every recorded aggregate is named after its key, holds at least one transfer,
keeps its transfer set strictly sorted by the full transfer order, and its
running total is the sum of its transfers' amounts. -/
def MapWf (m : AccMap) : Prop :=
  ∀ x sa, lookupAccount m x = some sa →
    sa.name = x ∧ sa.transfers ≠ [] ∧ sa.transfers.Pairwise transferLt ∧
      sa.sum = amountsSum sa.transfers

/-- A comparison function that is a strict linear comparison agreeing with
equality: the shape shared by all derived `Ord` implementations mirrored
above. -/
structure LawfulCmp (cmp : α → α → Ordering) : Prop where
  eq_iff : ∀ a b, cmp a b = Ordering.eq ↔ a = b
  lt_gt : ∀ a b, cmp a b = Ordering.lt ↔ cmp b a = Ordering.gt
  lt_trans : ∀ {a b c}, cmp a b = Ordering.lt → cmp b c = Ordering.lt →
    cmp a c = Ordering.lt

/-- Soundness of one rollup entry against its declared table row, for a scope
whose active accounts (accounts with at least one leg in the scope) are
`act`: the entry carries the row's key, its total is the sum of its listed
members' totals, and its member names are exactly the declared members with
activity, in declaration order — an inactive declared member never appears. -/
def EntrySound {α : Type} (act : List String) (e : α × ℚ × List SummedAccount)
    (row : α × List String) : Prop :=
  e.1 = row.1 ∧
  e.2.1 = ((e.2.2).map SummedAccount.sum).sum ∧
  e.2.2.map SummedAccount.name = row.2.filter (fun a => decide (a ∈ act))

/-- Soundness of a whole `SummedGrouping` against the declared category
tables, for a scope with active accounts `act`. -/
def ScopeSound (data : RealBookkeeping) (act : List String) (sg : SummedGrouping) : Prop :=
  List.Forall₂ (EntrySound act) sg.account_types data.account_types ∧
  List.Forall₂ (EntrySound act) sg.account_sums data.account_sums

/-- A ledger with unique identities and declared accounts whose only
transaction is unbalanced. -/
def c4okdata : RealBookkeeping :=
  { name := ("run4b"), accounts := [("a"), ("b")]
    account_types := [(AccountType.Asset, [("a"), ("b")])]
    account_sums := []
    groupings := [ { name := ("G"), transactions := [c5t1] } ] }

/-- A balanced transaction whose first leg names the undeclared account `x`. -/
def c5okt : RealTransaction :=
  { name := ("t"), date := d0, index := 0
    transfers := [(("x"), (1 : ℚ)), (("a"), (-1 : ℚ))], comments := [] }

/-- A ledger with unique identities, all transactions balanced, and one leg
naming an undeclared account. -/
def c5okdata : RealBookkeeping :=
  { name := ("run5b"), accounts := [("a"), ("b")]
    account_types := [(AccountType.Asset, [("a"), ("b")])]
    account_sums := []
    groupings := [ { name := ("G"), transactions := [c5okt] } ] }

/-- A balanced, declared ledger containing the same transaction twice with
the same index, so the same transfer value would be inserted twice. -/
def c7dupdata : RealBookkeeping :=
  { name := ("run7b"), accounts := [("a"), ("b")]
    account_types := [(AccountType.Asset, [("a"), ("b")])]
    account_sums := []
    groupings := [ { name := ("G"), transactions := [c4t1, c4t1] } ] }

/-! ## Theorems -/

theorem Ordering.then_eq_eq {o p : Ordering} :
    o.then p = Ordering.eq ↔ o = Ordering.eq ∧ p = Ordering.eq := by
  cases o <;> simp [Ordering.then]

theorem Ordering.then_eq_lt {o p : Ordering} :
    o.then p = Ordering.lt ↔ o = Ordering.lt ∨ (o = Ordering.eq ∧ p = Ordering.lt) := by
  cases o <;> simp [Ordering.then]

theorem Ordering.then_eq_gt {o p : Ordering} :
    o.then p = Ordering.gt ↔ o = Ordering.gt ∨ (o = Ordering.eq ∧ p = Ordering.gt) := by
  cases o <;> simp [Ordering.then]

theorem LawfulCmp.eq_refl {cmp : α → α → Ordering} (h : LawfulCmp cmp) (a : α) :
    cmp a a = Ordering.eq := (h.eq_iff a a).mpr rfl

theorem LawfulCmp.lt_ne {cmp : α → α → Ordering} (h : LawfulCmp cmp) {a b : α}
    (hab : cmp a b = Ordering.lt) : a ≠ b := by
  intro he
  subst he
  rw [h.eq_refl a] at hab
  exact Ordering.noConfusion hab

theorem LawfulCmp.gt_iff {cmp : α → α → Ordering} (h : LawfulCmp cmp) {a b : α} :
    cmp a b = Ordering.gt ↔ cmp b a = Ordering.lt := (h.lt_gt b a).symm

/-- Lawfulness for the linear-comparison shape used on `Nat`, `Int` and `ℚ`. -/
theorem lawful_of_linear [LinearOrder α] {cmp : α → α → Ordering}
    (h1 : ∀ a b : α, a < b → cmp a b = Ordering.lt)
    (h2 : ∀ a b : α, b < a → cmp a b = Ordering.gt)
    (h3 : ∀ a b : α, ¬a < b → ¬b < a → cmp a b = Ordering.eq) :
    LawfulCmp cmp := by
  have key : ∀ a b : α, cmp a b = Ordering.lt ↔ a < b := by
    intro a b
    constructor
    · intro hc
      rcases lt_trichotomy a b with hlt | heq | hgt
      · exact hlt
      · subst heq
        rw [h3 a a (lt_irrefl a) (lt_irrefl a)] at hc
        exact absurd hc (by simp)
      · rw [h2 a b hgt] at hc
        exact absurd hc (by simp)
    · exact h1 a b
  have keyg : ∀ a b : α, cmp a b = Ordering.gt ↔ b < a := by
    intro a b
    constructor
    · intro hc
      rcases lt_trichotomy a b with hlt | heq | hgt
      · rw [h1 a b hlt] at hc
        exact absurd hc (by simp)
      · subst heq
        rw [h3 a a (lt_irrefl a) (lt_irrefl a)] at hc
        exact absurd hc (by simp)
      · exact hgt
    · exact h2 a b
  refine ⟨?_, ?_, ?_⟩
  · intro a b
    constructor
    · intro hc
      rcases lt_trichotomy a b with hlt | heq | hgt
      · rw [h1 a b hlt] at hc
        exact absurd hc (by simp)
      · exact heq
      · rw [h2 a b hgt] at hc
        exact absurd hc (by simp)
    · intro he
      subst he
      exact h3 a a (lt_irrefl a) (lt_irrefl a)
  · intro a b
    rw [key, keyg]
  · intro a b c hab hbc
    rw [key] at hab hbc ⊢
    exact lt_trans hab hbc

theorem lawful_cmpNat : LawfulCmp cmpNat := by
  refine lawful_of_linear ?_ ?_ ?_ <;> intro a b <;> unfold cmpNat
  · intro h
    rw [if_pos h]
  · intro h
    rw [if_neg (by omega), if_pos h]
  · intro h1 h2
    rw [if_neg h1, if_neg h2]

theorem lawful_cmpInt : LawfulCmp cmpInt := by
  refine lawful_of_linear ?_ ?_ ?_ <;> intro a b <;> unfold cmpInt
  · intro h
    rw [if_pos h]
  · intro h
    rw [if_neg (by omega), if_pos h]
  · intro h1 h2
    rw [if_neg h1, if_neg h2]

theorem lawful_cmpQ : LawfulCmp cmpQ := by
  refine lawful_of_linear ?_ ?_ ?_ <;> intro a b <;> unfold cmpQ
  · intro h
    rw [if_pos h]
  · intro h
    rw [if_neg (not_lt_of_gt h), if_pos h]
  · intro h1 h2
    rw [if_neg h1, if_neg h2]

/-- Lawfulness transfers along an injective key, given the pointwise defining
equation. -/
theorem LawfulCmp.comap {c : β → β → Ordering} (hc : LawfulCmp c)
    (f : α → α → Ordering) (k : α → β) (hinj : Function.Injective k)
    (heq : ∀ a b, f a b = c (k a) (k b)) : LawfulCmp f := by
  refine ⟨?_, ?_, ?_⟩
  · intro a b
    rw [heq, hc.eq_iff]
    exact ⟨fun h => hinj h, fun h => by rw [h]⟩
  · intro a b
    rw [heq, heq, hc.lt_gt]
  · intro a b c hab hbc
    rw [heq] at hab hbc ⊢
    exact hc.lt_trans hab hbc

theorem lawful_cmpChar : LawfulCmp cmpChar := by
  refine lawful_cmpNat.comap cmpChar Char.toNat ?_ (fun a b => rfl)
  intro a b h
  exact Char.eq_of_val_eq (by exact UInt32.eq_of_val_eq (Fin.eq_of_val_eq h))

theorem lawful_cmpProd {f : α → α → Ordering} {g : β → β → Ordering}
    (hf : LawfulCmp f) (hg : LawfulCmp g) : LawfulCmp (cmpProd f g) := by
  refine ⟨?_, ?_, ?_⟩
  · intro a b
    unfold cmpProd
    rw [Ordering.then_eq_eq, hf.eq_iff, hg.eq_iff, Prod.ext_iff]
  · intro a b
    unfold cmpProd
    rw [Ordering.then_eq_lt, Ordering.then_eq_gt]
    constructor
    · rintro (h | ⟨h1, h2⟩)
      · exact Or.inl ((hf.lt_gt _ _).mp h)
      · exact Or.inr ⟨(hf.eq_iff _ _).mpr ((hf.eq_iff _ _).mp h1).symm, (hg.lt_gt _ _).mp h2⟩
    · rintro (h | ⟨h1, h2⟩)
      · exact Or.inl ((hf.lt_gt _ _).mpr h)
      · exact Or.inr ⟨(hf.eq_iff _ _).mpr ((hf.eq_iff _ _).mp h1).symm, (hg.lt_gt _ _).mpr h2⟩
  · intro a b c hab hbc
    unfold cmpProd at hab hbc ⊢
    rw [Ordering.then_eq_lt] at hab hbc ⊢
    rcases hab with h1 | ⟨h1, h2⟩ <;> rcases hbc with h3 | ⟨h3, h4⟩
    · exact Or.inl (hf.lt_trans h1 h3)
    · rw [← (hf.eq_iff b.1 c.1).mp h3]
      exact Or.inl h1
    · rw [(hf.eq_iff a.1 b.1).mp h1]
      exact Or.inl h3
    · rw [(hf.eq_iff a.1 b.1).mp h1]
      exact Or.inr ⟨h3, hg.lt_trans h2 h4⟩

theorem lawful_cmpList {c : α → α → Ordering} (hc : LawfulCmp c) :
    LawfulCmp (cmpList c) := by
  refine ⟨?_, ?_, ?_⟩
  · intro a
    induction a with
    | nil => intro b; cases b <;> simp [cmpList]
    | cons x xs ih =>
      intro b
      cases b with
      | nil => simp [cmpList]
      | cons y ys =>
        simp only [cmpList, Ordering.then_eq_eq, hc.eq_iff, ih ys, List.cons.injEq]
  · intro a
    induction a with
    | nil => intro b; cases b <;> simp [cmpList]
    | cons x xs ih =>
      intro b
      cases b with
      | nil => simp [cmpList]
      | cons y ys =>
        simp only [cmpList, Ordering.then_eq_lt, Ordering.then_eq_gt, ← hc.lt_gt, ← ih ys,
          hc.eq_iff]
        constructor
        · rintro (h | ⟨h1, h2⟩)
          · exact Or.inl h
          · exact Or.inr ⟨h1.symm, h2⟩
        · rintro (h | ⟨h1, h2⟩)
          · exact Or.inl h
          · exact Or.inr ⟨h1.symm, h2⟩
  · intro a
    induction a with
    | nil =>
      intro b c hab hbc
      cases b with
      | nil => exact hbc
      | cons y ys =>
        cases c with
        | nil => simp [cmpList] at hbc
        | cons z zs => simp [cmpList]
    | cons x xs ih =>
      intro b c hab hbc
      cases b with
      | nil => simp [cmpList] at hab
      | cons y ys =>
        cases c with
        | nil => simp [cmpList] at hbc
        | cons z zs =>
          simp only [cmpList, Ordering.then_eq_lt] at hab hbc ⊢
          rcases hab with h1 | ⟨h1, h2⟩ <;> rcases hbc with h3 | ⟨h3, h4⟩
          · exact Or.inl (hc.lt_trans h1 h3)
          · rw [← (hc.eq_iff y z).mp h3]
            exact Or.inl h1
          · rw [(hc.eq_iff x y).mp h1]
            exact Or.inl h3
          · rw [(hc.eq_iff x y).mp h1]
            exact Or.inr ⟨h3, ih h2 h4⟩

theorem lawful_cmpString : LawfulCmp cmpString := by
  refine (lawful_cmpList lawful_cmpChar).comap cmpString String.data ?_ (fun a b => rfl)
  intro a b h
  cases a
  cases b
  exact congrArg String.mk (by simpa using h)

theorem lawful_cmpLegs : LawfulCmp cmpLegs :=
  lawful_cmpList (lawful_cmpProd lawful_cmpString lawful_cmpQ)

theorem lawful_cmpDate : LawfulCmp cmpDate := by
  refine (lawful_cmpProd lawful_cmpInt (lawful_cmpProd lawful_cmpNat lawful_cmpNat)).comap
    cmpDate (fun d => (d.year, d.month, d.day)) ?_ (fun a b => rfl)
  intro a b h
  cases a
  cases b
  simpa using h

theorem Ordering.then_assoc (a b c : Ordering) :
    (a.then b).then c = a.then (b.then c) := by
  cases a <;> simp [Ordering.then]

/-- The comparison of the four-field keys, as a product comparison. -/
theorem cmpKey_eq (a b : Transfer) :
    cmpKey a b =
      cmpProd cmpDate (cmpProd cmpString (cmpProd cmpQ cmpString)) (key4 a) (key4 b) := rfl

theorem lawful_cmpKey4 :
    LawfulCmp (cmpProd cmpDate (cmpProd cmpString (cmpProd cmpQ cmpString))) :=
  lawful_cmpProd lawful_cmpDate (lawful_cmpProd lawful_cmpString
    (lawful_cmpProd lawful_cmpQ lawful_cmpString))

/-- The four-field comparison is `eq` exactly when the four keys agree. -/
theorem cmpKey_eq_eq_iff {a b : Transfer} :
    cmpKey a b = Ordering.eq ↔ key4 a = key4 b := by
  rw [cmpKey_eq, lawful_cmpKey4.eq_iff]

theorem keyLt_trans {a b c : Transfer} (h1 : keyLt a b) (h2 : keyLt b c) : keyLt a c := by
  unfold keyLt at h1 h2 ⊢
  rw [cmpKey_eq] at h1 h2 ⊢
  exact lawful_cmpKey4.lt_trans h1 h2

/-- The full transfer comparison is the four-field key comparison refined by
the related-transfer comparison. -/
theorem cmpTransfer_eq_key_then (a b : Transfer) :
    cmpTransfer a b = (cmpKey a b).then (cmpLegs a.related_transfers b.related_transfers) := by
  unfold cmpTransfer cmpKey
  rw [Ordering.then_assoc, Ordering.then_assoc, Ordering.then_assoc]

/-- A full-order strict inequality whose four-field keys differ is a
four-field strict inequality. -/
theorem keyLt_of_transferLt_of_key_ne {a b : Transfer} (h : transferLt a b)
    (hne : key4 a ≠ key4 b) : keyLt a b := by
  unfold transferLt at h
  rw [cmpTransfer_eq_key_then, Ordering.then_eq_lt] at h
  rcases h with h | ⟨h, _⟩
  · exact h
  · exact absurd (cmpKey_eq_eq_iff.mp h) hne

theorem lawful_cmpTransfer : LawfulCmp cmpTransfer := by
  refine (lawful_cmpProd lawful_cmpDate (lawful_cmpProd lawful_cmpString
    (lawful_cmpProd lawful_cmpQ (lawful_cmpProd lawful_cmpString lawful_cmpLegs)))).comap
    cmpTransfer
    (fun t => (t.date, t.name, t.amount, t.unique_id, t.related_transfers)) ?_
    (fun a b => rfl)
  intro a b h
  cases a
  cases b
  simpa using h

/-- C2: on the concrete input with one period `Jan` containing one transaction
with legs `money:+100` and `income:-100`, declared accounts `money : Asset`
and `income : Income` and no named categories, `calculate` returns the
`SummedBookkeeping` whose global totals are `money = 100` and `income = -100`
and whose `AccountType` rollup has the entry `Asset` with total 100 and member
`money` and the entry `Income` with total -100 and member `income` (the value
`c2expected` spells out exactly this result). -/
theorem c2_scenario_one : calculate c2data = Except.ok c2expected := by decide

/-- C7 counterexample: on the ledger `c7data` two transfers with an identical
(date, name, amount, unique id) key — `c7trA1` and `c7trB1`, which differ only
in their related-transfer lists — are inserted into account `a`'s transfer
set, yet `calculate` succeeds instead of failing with `DuplicateTransfer`:
duplicate detection compares whole transfers, related transfers included. -/
theorem c7_counterexample :
    calculate c7data = Except.ok c7expected ∧
    cmpKey c7trA1 c7trB1 = Ordering.eq ∧
    c7trA1 ≠ c7trB1 ∧
    c7trA1 ∈ c7accA.transfers ∧
    c7trB1 ∈ c7accA.transfers ∧
    c7accA ∈ allSummedAccounts c7expected := by decide

/-- C4 counterexample: the ledger `c4data` has every leg account declared and
contains the unbalanced transaction `c4t3`, yet `calculate` does not fail with
`UnbalancedTransaction`: the exact duplicate of its first transaction aborts
the run with `DuplicateTransfer` before the balance check of `c4t3` is
reached. -/
theorem c4_counterexample :
    calculate c4data = Except.error (CalcError.DuplicateTransfer c4t1) ∧
    isUnbalancedError (calculate c4data) = false ∧
    c4t3 ∈ (c4data.groupings.map RealGrouping.transactions).flatten ∧
    computedSum c4t3.transfers ≠ 0 ∧
    decide (LegsDeclared c4data) = true := by decide

/-- C5 counterexample: the ledger `c5data` contains a leg naming the
undeclared account `x`, yet `calculate` does not fail with
`UndeclaredAccount`: the earlier unbalanced transaction `c5t1` aborts the run
with `UnbalancedTransaction` first. -/
theorem c5_counterexample :
    calculate c5data = Except.error (CalcError.UnbalancedTransaction ("t") 5) ∧
    isUndeclaredError (calculate c5data) = false ∧
    c5t2 ∈ (c5data.groupings.map RealGrouping.transactions).flatten ∧
    (("x"), (1 : ℚ)) ∈ c5t2.transfers ∧
    (("x") : String) ∉ c5data.accounts := by decide

/-- C9 counterexample: in the result of scenario 1, the transfer realized from
the `money:+100` leg carries related transfers equal to the transaction's full
leg list — the leg it was realized from included — rather than only the other
legs: the source clones the whole list (`Includes self, but who cares`). -/
theorem c9_counterexample :
    calculate c2data = Except.ok c2expected ∧
    c2money ∈ allSummedAccounts c2expected ∧
    c2moneyTransfer ∈ c2money.transfers ∧
    (("money"), (100 : ℚ)) ∈ c2moneyTransfer.related_transfers := by decide

/-! ## Exact addition agrees with rational addition -/

theorem decAdd_eq (a b : ℚ) : decAdd a b = a + b := (Rat.add_def' a b).symm

/-! ## Ordered insertion into the transfer set -/

theorem insertTransfer_some_perm {t : Transfer} :
    ∀ {l l2 : List Transfer}, insertTransfer t l = some l2 → l2.Perm (t :: l) := by
  intro l
  induction l with
  | nil =>
    intro l2 h
    simp only [insertTransfer, Option.some.injEq] at h
    rw [← h]
  | cons x xs ih =>
    intro l2 h
    simp only [insertTransfer] at h
    rcases hc : cmpTransfer t x with _ | _ | _ <;> rw [hc] at h
    · rw [Option.some.injEq] at h
      rw [← h]
    · exact Option.noConfusion h
    · rcases hi : insertTransfer t xs with _ | ys <;> rw [hi] at h
      · exact Option.noConfusion h
      · rw [Option.some.injEq] at h
        rw [← h]
        exact ((ih hi).cons x).trans (List.Perm.swap t x xs)

theorem insertTransfer_mem {t : Transfer} {l l2 : List Transfer}
    (h : insertTransfer t l = some l2) {u : Transfer} :
    u ∈ l2 ↔ u = t ∨ u ∈ l := by
  rw [(insertTransfer_some_perm h).mem_iff, List.mem_cons]

theorem insertTransfer_none_iff {t : Transfer} :
    ∀ {l : List Transfer}, l.Pairwise transferLt → (insertTransfer t l = none ↔ t ∈ l) := by
  intro l
  induction l with
  | nil => intro _; simp [insertTransfer]
  | cons x xs ih =>
    intro hs
    rw [List.pairwise_cons] at hs
    simp only [insertTransfer, List.mem_cons]
    rcases hc : cmpTransfer t x with _ | _ | _
    · simp only [reduceCtorEq, false_iff, not_or]
      refine ⟨lawful_cmpTransfer.lt_ne hc, ?_⟩
      intro hmem
      have hlt : transferLt x t := hs.1 t hmem
      have hgt : cmpTransfer t x = Ordering.gt := (lawful_cmpTransfer.gt_iff).mpr hlt
      rw [hc] at hgt
      exact Ordering.noConfusion hgt
    · simp only [true_iff]
      exact Or.inl ((lawful_cmpTransfer.eq_iff t x).mp hc)
    · rcases hi : insertTransfer t xs with _ | ys
      · exact iff_of_true rfl (Or.inr ((ih hs.2).mp hi))
      · refine iff_of_false (fun he => Option.noConfusion he) ?_
        rintro (he | hmem)
        · rw [he, lawful_cmpTransfer.eq_refl x] at hc
          exact Ordering.noConfusion hc
        · have hn : insertTransfer t xs = none := (ih hs.2).mpr hmem
          rw [hn] at hi
          exact Option.noConfusion hi

theorem insertTransfer_sorted {t : Transfer} :
    ∀ {l l2 : List Transfer}, l.Pairwise transferLt → insertTransfer t l = some l2 →
      l2.Pairwise transferLt := by
  intro l
  induction l with
  | nil =>
    intro l2 _ h
    simp only [insertTransfer, Option.some.injEq] at h
    rw [← h]
    exact List.pairwise_singleton _ _
  | cons x xs ih =>
    intro l2 hs h
    rw [List.pairwise_cons] at hs
    simp only [insertTransfer] at h
    rcases hc : cmpTransfer t x with _ | _ | _ <;> rw [hc] at h
    · rw [Option.some.injEq] at h
      rw [← h, List.pairwise_cons]
      refine ⟨?_, List.pairwise_cons.mpr hs⟩
      intro u hu
      rw [List.mem_cons] at hu
      rcases hu with he | hu
      · rw [he]
        exact hc
      · exact lawful_cmpTransfer.lt_trans hc (hs.1 u hu)
    · exact Option.noConfusion h
    · rcases hi : insertTransfer t xs with _ | ys <;> rw [hi] at h
      · exact Option.noConfusion h
      · rw [Option.some.injEq] at h
        rw [← h, List.pairwise_cons]
        refine ⟨?_, ih hs.2 hi⟩
        intro u hu
        rw [insertTransfer_mem hi] at hu
        rcases hu with he | hu
        · rw [he]
          exact (lawful_cmpTransfer.gt_iff).mp hc
        · exact hs.1 u hu

/-! ## The accumulator update -/

theorem lookupAccount_cons (k : String) (sa : SummedAccount) (rest : AccMap) (x : String) :
    lookupAccount ((k, sa) :: rest) x = if k = x then some sa else lookupAccount rest x := rfl

theorem transfersOf_eq (m : AccMap) (x : String) :
    transfersOf m x = match lookupAccount m x with
      | some sa => sa.transfers
      | none => [] := rfl

theorem sumOf_eq (m : AccMap) (x : String) :
    sumOf m x = match lookupAccount m x with
      | some sa => sa.sum
      | none => 0 := rfl

/-- What a successful update records for keys other than the touched one:
nothing changes. -/
theorem applyLeg_lookup_other {m : AccMap} {a : String} {q : ℚ} {t : Transfer} :
    ∀ {m2 : AccMap}, applyLeg m a q t = some m2 → ∀ x, x ≠ a →
      lookupAccount m2 x = lookupAccount m x := by
  induction m with
  | nil =>
    intro m2 h x hx
    simp only [applyLeg, Option.some.injEq] at h
    rw [← h, lookupAccount_cons, if_neg (fun he => hx he.symm)]
  | cons p rest ih =>
    intro m2 h x hx
    obtain ⟨k, sa⟩ := p
    simp only [applyLeg] at h
    by_cases hk : k = a
    · rw [if_pos hk] at h
      rcases hi : insertTransfer t sa.transfers with _ | ts <;> rw [hi] at h
      · exact Option.noConfusion h
      · rw [Option.some.injEq] at h
        have hkx : ¬k = x := fun he => hx (by rw [← he]; exact hk)
        rw [← h, lookupAccount_cons, lookupAccount_cons, if_neg hkx, if_neg hkx]
    · rw [if_neg hk] at h
      rcases ha : applyLeg rest a q t with _ | m2x <;> rw [ha] at h
      · exact Option.noConfusion h
      · rw [Option.some.injEq] at h
        rw [← h, lookupAccount_cons, lookupAccount_cons]
        by_cases hkx : k = x
        · rw [if_pos hkx, if_pos hkx]
        · rw [if_neg hkx, if_neg hkx]
          exact ih ha x hx

/-- What a successful update records for the touched key: the aggregate is
created from the single transfer when absent, and otherwise its total grows by
the amount and the transfer is inserted into its set. -/
theorem applyLeg_lookup_self {m : AccMap} {a : String} {q : ℚ} {t : Transfer} :
    ∀ {m2 : AccMap}, applyLeg m a q t = some m2 →
      (lookupAccount m a = none ∧
        lookupAccount m2 a = some { name := a, sum := q, transfers := [t] }) ∨
      (∃ sa ts, lookupAccount m a = some sa ∧ insertTransfer t sa.transfers = some ts ∧
        lookupAccount m2 a = some { sa with sum := decAdd sa.sum q, transfers := ts }) := by
  induction m with
  | nil =>
    intro m2 h
    simp only [applyLeg, Option.some.injEq] at h
    refine Or.inl ⟨rfl, ?_⟩
    rw [← h, lookupAccount_cons, if_pos rfl]
  | cons p rest ih =>
    intro m2 h
    obtain ⟨k, sa⟩ := p
    simp only [applyLeg] at h
    by_cases hk : k = a
    · rw [if_pos hk] at h
      rcases hi : insertTransfer t sa.transfers with _ | ts <;> rw [hi] at h
      · exact Option.noConfusion h
      · rw [Option.some.injEq] at h
        refine Or.inr ⟨sa, ts, ?_, hi, ?_⟩
        · rw [lookupAccount_cons, if_pos hk]
        · rw [← h, lookupAccount_cons, if_pos hk]
    · rw [if_neg hk] at h
      rcases ha : applyLeg rest a q t with _ | m2x <;> rw [ha] at h
      · exact Option.noConfusion h
      · rw [Option.some.injEq] at h
        rw [← h, lookupAccount_cons, lookupAccount_cons, if_neg hk, if_neg hk]
        exact ih ha

/-- A successful update on a sorted account fails exactly when the transfer is
already present in the account's set. -/
theorem applyLeg_none_iff {m : AccMap} {a : String} {q : ℚ} {t : Transfer}
    (hs : (transfersOf m a).Pairwise transferLt) :
    applyLeg m a q t = none ↔ t ∈ transfersOf m a := by
  induction m with
  | nil =>
    simp [applyLeg, transfersOf, lookupAccount]
  | cons p rest ih =>
    obtain ⟨k, sa⟩ := p
    by_cases hk : k = a
    · have hs2 : sa.transfers.Pairwise transferLt := by
        rw [transfersOf_eq, lookupAccount_cons, if_pos hk] at hs
        exact hs
      have hgoal : transfersOf ((k, sa) :: rest) a = sa.transfers := by
        rw [transfersOf_eq, lookupAccount_cons, if_pos hk]
      rw [hgoal]
      simp only [applyLeg, if_pos hk]
      rcases hi : insertTransfer t sa.transfers with _ | ts
      · exact iff_of_true rfl ((insertTransfer_none_iff hs2).mp hi)
      · refine iff_of_false (fun he => Option.noConfusion he) ?_
        intro hmem
        rw [(insertTransfer_none_iff hs2).mpr hmem] at hi
        exact Option.noConfusion hi
    · have hs2 : (transfersOf rest a).Pairwise transferLt := by
        rw [transfersOf_eq, lookupAccount_cons, if_neg hk] at hs
        exact hs
      have hgoal : transfersOf ((k, sa) :: rest) a = transfersOf rest a := by
        rw [transfersOf_eq, lookupAccount_cons, if_neg hk]
        rfl
      rw [hgoal]
      simp only [applyLeg, if_neg hk]
      rcases ha : applyLeg rest a q t with _ | m2x
      · exact iff_of_true rfl ((ih hs2).mp ha)
      · refine iff_of_false (fun he => Option.noConfusion he) ?_
        intro hmem
        rw [(ih hs2).mpr hmem] at ha
        exact Option.noConfusion ha

theorem applyLeg_transfersOf_self {m : AccMap} {a : String} {q : ℚ} {t : Transfer}
    {m2 : AccMap} (h : applyLeg m a q t = some m2) :
    (transfersOf m2 a).Perm (t :: transfersOf m a) := by
  rcases applyLeg_lookup_self h with ⟨h1, h2⟩ | ⟨sa, ts, h1, hi, h2⟩
  · rw [transfersOf_eq, transfersOf_eq, h1, h2]
  · rw [transfersOf_eq, transfersOf_eq, h1, h2]
    exact insertTransfer_some_perm hi

theorem applyLeg_transfersOf_other {m : AccMap} {a : String} {q : ℚ} {t : Transfer}
    {m2 : AccMap} (h : applyLeg m a q t = some m2) {x : String} (hx : x ≠ a) :
    transfersOf m2 x = transfersOf m x := by
  rw [transfersOf_eq, transfersOf_eq, applyLeg_lookup_other h x hx]

theorem applyLeg_sumOf_self {m : AccMap} {a : String} {q : ℚ} {t : Transfer}
    {m2 : AccMap} (h : applyLeg m a q t = some m2) :
    sumOf m2 a = sumOf m a + q := by
  rcases applyLeg_lookup_self h with ⟨h1, h2⟩ | ⟨sa, ts, h1, hi, h2⟩
  · rw [sumOf_eq, sumOf_eq, h1, h2]
    exact (zero_add q).symm
  · rw [sumOf_eq, sumOf_eq, h1, h2]
    exact decAdd_eq sa.sum q

theorem applyLeg_sumOf_other {m : AccMap} {a : String} {q : ℚ} {t : Transfer}
    {m2 : AccMap} (h : applyLeg m a q t = some m2) {x : String} (hx : x ≠ a) :
    sumOf m2 x = sumOf m x := by
  rw [sumOf_eq, sumOf_eq, applyLeg_lookup_other h x hx]

theorem applyLeg_isSome {m : AccMap} {a : String} {q : ℚ} {t : Transfer}
    {m2 : AccMap} (h : applyLeg m a q t = some m2) (x : String) :
    (lookupAccount m2 x).isSome ↔ ((lookupAccount m x).isSome ∨ x = a) := by
  by_cases hx : x = a
  · subst hx
    rcases applyLeg_lookup_self h with ⟨h1, h2⟩ | ⟨sa, ts, h1, hi, h2⟩ <;>
      simp [h1, h2]
  · rw [applyLeg_lookup_other h x hx]
    simp [hx]

theorem applyLeg_wf {m : AccMap} {a : String} {q : ℚ} {t : Transfer}
    {m2 : AccMap} (hwf : MapWf m) (h : applyLeg m a q t = some m2) (hq : q = t.amount) :
    MapWf m2 := by
  subst hq
  intro x sa2 hx
  by_cases hxa : x = a
  · subst hxa
    rcases applyLeg_lookup_self h with ⟨h1, h2⟩ | ⟨sa, ts, h1, hi, h2⟩
    · rw [hx, Option.some.injEq] at h2
      subst h2
      refine ⟨rfl, by simp, List.pairwise_singleton _ _, by simp [amountsSum]⟩
    · rw [hx, Option.some.injEq] at h2
      subst h2
      obtain ⟨hname, hne, hsort, hsum⟩ := hwf x sa h1
      have hperm := insertTransfer_some_perm hi
      refine ⟨hname, ?_, insertTransfer_sorted hsort hi, ?_⟩
      · intro he
        have he2 : ts = [] := he
        have hl := hperm.length_eq
        rw [he2] at hl
        simp at hl
      · show decAdd sa.sum t.amount = amountsSum ts
        rw [decAdd_eq, hsum]
        unfold amountsSum
        rw [(hperm.map Transfer.amount).sum_eq]
        simp only [List.map_cons, List.sum_cons]
        ring
  · rw [applyLeg_lookup_other h x hxa] at hx
    exact hwf x sa2 hx

theorem applyLeg_mem {m : AccMap} {a : String} {q : ℚ} {t : Transfer} {m2 : AccMap}
    (h : applyLeg m a q t = some m2) (x : String) (u : Transfer) :
    u ∈ transfersOf m2 x ↔ u ∈ transfersOf m x ∨ (x = a ∧ u = t) := by
  by_cases hx : x = a
  · subst hx
    rw [(applyLeg_transfersOf_self h).mem_iff, List.mem_cons]
    constructor
    · rintro (he | hm)
      · exact Or.inr ⟨rfl, he⟩
      · exact Or.inl hm
    · rintro (hm | ⟨_, he⟩)
      · exact Or.inr hm
      · exact Or.inl he
  · rw [applyLeg_transfersOf_other h hx]
    simp [hx]

theorem MapWf.sorted {m : AccMap} (hwf : MapWf m) (a : String) :
    (transfersOf m a).Pairwise transferLt := by
  rw [transfersOf_eq]
  rcases hl : lookupAccount m a with _ | sa
  · exact List.Pairwise.nil
  · exact (hwf a sa hl).2.2.1

/-! ## The leg loop -/

theorem processLegsFrom_cons (decl : List String) (g : String) (t : RealTransaction)
    (i : Nat) (a : String) (q : ℚ) (rest : List (String × ℚ)) (sum : ℚ)
    (total loc : AccMap) :
    processLegsFrom decl g t i ((a, q) :: rest) sum total loc =
      if a ∈ decl then
        match applyLeg total a q (legTransfer g t i (a, q)) with
        | none => .error (.DuplicateTransfer t)
        | some total2 =>
          match applyLeg loc a q (legTransfer g t i (a, q)) with
          | none => .error (.DuplicateTransfer t)
          | some loc2 => processLegsFrom decl g t (i+1) rest (decAdd sum q) total2 loc2
      else .error (.UndeclaredAccount t.name a) := rfl

theorem foldl_decAdd (legs : List (String × ℚ)) :
    ∀ q0 : ℚ, legs.foldl (fun q l => decAdd q l.2) q0 = q0 + legsTotal legs := by
  induction legs with
  | nil => intro q0; simp [legsTotal]
  | cons l rest ih =>
    intro q0
    rw [List.foldl_cons, ih, decAdd_eq]
    simp only [legsTotal, List.map_cons, List.sum_cons]
    ring

theorem computedSum_eq (legs : List (String × ℚ)) : computedSum legs = legsTotal legs := by
  rw [computedSum, foldl_decAdd, zero_add]

theorem legsFor_cons (l : String × ℚ) (rest : List (String × ℚ)) (A : String) :
    legsFor (l :: rest) A = (if l.1 = A then l.2 else 0) + legsFor rest A := by
  unfold legsFor
  rw [List.filter_cons]
  by_cases hl : l.1 = A
  · simp [hl]
  · simp [hl]

/-- The leg loop's final transaction sum is the starting sum plus the total of
the legs. -/
theorem pl_ok_sum {decl : List String} {g : String} {t : RealTransaction} :
    ∀ {legs : List (String × ℚ)} {i : Nat} {sum : ℚ} {T L : AccMap}
      {s2 : ℚ} {T2 L2 : AccMap},
      processLegsFrom decl g t i legs sum T L = .ok (s2, T2, L2) →
      s2 = sum + legsTotal legs := by
  intro legs
  induction legs with
  | nil =>
    intro i sum T L s2 T2 L2 h
    simp only [processLegsFrom, Except.ok.injEq, Prod.mk.injEq] at h
    rw [← h.1]
    simp [legsTotal]
  | cons l rest ih =>
    intro i sum T L s2 T2 L2 h
    obtain ⟨a, q⟩ := l
    rw [processLegsFrom_cons] at h
    by_cases hd : a ∈ decl
    · rw [if_pos hd] at h
      rcases h1 : applyLeg T a q (legTransfer g t i (a, q)) with _ | T1 <;> rw [h1] at h
      · exact Except.noConfusion h
      · rcases h2 : applyLeg L a q (legTransfer g t i (a, q)) with _ | L1 <;> rw [h2] at h
        · exact Except.noConfusion h
        · rw [ih h, decAdd_eq]
          simp only [legsTotal, List.map_cons, List.sum_cons]
          ring
    · rw [if_neg hd] at h
      exact Except.noConfusion h

/-- Per-account sums recorded by the leg loop, in both accumulators. -/
theorem pl_ok_sumOf {decl : List String} {g : String} {t : RealTransaction} :
    ∀ {legs : List (String × ℚ)} {i : Nat} {sum : ℚ} {T L : AccMap}
      {s2 : ℚ} {T2 L2 : AccMap},
      processLegsFrom decl g t i legs sum T L = .ok (s2, T2, L2) →
      ∀ A, sumOf T2 A = sumOf T A + legsFor legs A ∧
        sumOf L2 A = sumOf L A + legsFor legs A := by
  intro legs
  induction legs with
  | nil =>
    intro i sum T L s2 T2 L2 h A
    simp only [processLegsFrom, Except.ok.injEq, Prod.mk.injEq] at h
    rw [← h.2.1, ← h.2.2]
    simp [legsFor]
  | cons l rest ih =>
    intro i sum T L s2 T2 L2 h A
    obtain ⟨a, q⟩ := l
    rw [processLegsFrom_cons] at h
    by_cases hd : a ∈ decl
    · rw [if_pos hd] at h
      rcases h1 : applyLeg T a q (legTransfer g t i (a, q)) with _ | T1 <;> rw [h1] at h
      · exact Except.noConfusion h
      · rcases h2 : applyLeg L a q (legTransfer g t i (a, q)) with _ | L1 <;> rw [h2] at h
        · exact Except.noConfusion h
        · obtain ⟨hT, hL⟩ := ih h A
          rw [hT, hL, legsFor_cons]
          by_cases hA : a = A
          · subst hA
            rw [applyLeg_sumOf_self h1, applyLeg_sumOf_self h2, if_pos (rfl : a = a)]
            constructor <;> ring
          · rw [applyLeg_sumOf_other h1 (fun he => hA he.symm),
              applyLeg_sumOf_other h2 (fun he => hA he.symm)]
            rw [if_neg (fun he => hA he)]
            constructor <;> ring
    · rw [if_neg hd] at h
      exact Except.noConfusion h

/-- Transfer sets recorded by the leg loop: each accumulator gains exactly the
realized transfers of the processed legs, at their accounts. -/
theorem pl_ok_mem {decl : List String} {g : String} {t : RealTransaction} :
    ∀ {legs : List (String × ℚ)} {i : Nat} {sum : ℚ} {T L : AccMap}
      {s2 : ℚ} {T2 L2 : AccMap},
      processLegsFrom decl g t i legs sum T L = .ok (s2, T2, L2) →
      ∀ A u,
        (u ∈ transfersOf T2 A ↔ u ∈ transfersOf T A ∨
          ∃ p ∈ legs.enumFrom i, p.2.1 = A ∧ u = legTransfer g t p.1 p.2) ∧
        (u ∈ transfersOf L2 A ↔ u ∈ transfersOf L A ∨
          ∃ p ∈ legs.enumFrom i, p.2.1 = A ∧ u = legTransfer g t p.1 p.2) := by
  intro legs
  induction legs with
  | nil =>
    intro i sum T L s2 T2 L2 h A u
    simp only [processLegsFrom, Except.ok.injEq, Prod.mk.injEq] at h
    rw [← h.2.1, ← h.2.2]
    simp [List.enumFrom]
  | cons l rest ih =>
    intro i sum T L s2 T2 L2 h A u
    obtain ⟨a, q⟩ := l
    rw [processLegsFrom_cons] at h
    by_cases hd : a ∈ decl
    · rw [if_pos hd] at h
      rcases h1 : applyLeg T a q (legTransfer g t i (a, q)) with _ | T1 <;> rw [h1] at h
      · exact Except.noConfusion h
      · rcases h2 : applyLeg L a q (legTransfer g t i (a, q)) with _ | L1 <;> rw [h2] at h
        · exact Except.noConfusion h
        · obtain ⟨hT, hL⟩ := ih h A u
          constructor
          · rw [hT, applyLeg_mem h1 A u]
            simp only [List.enumFrom, List.mem_cons, List.cons.injEq]
            constructor
            · rintro ((hm | ⟨hxa, he⟩) | ⟨p, hp, hpa, he⟩)
              · exact Or.inl hm
              · exact Or.inr ⟨(i, (a, q)), Or.inl rfl, hxa.symm, he⟩
              · exact Or.inr ⟨p, Or.inr hp, hpa, he⟩
            · rintro (hm | ⟨p, hp | hp, hpa, he⟩)
              · exact Or.inl (Or.inl hm)
              · rw [hp] at hpa he
                exact Or.inl (Or.inr ⟨hpa.symm, he⟩)
              · exact Or.inr ⟨p, hp, hpa, he⟩
          · rw [hL, applyLeg_mem h2 A u]
            simp only [List.enumFrom, List.mem_cons, List.cons.injEq]
            constructor
            · rintro ((hm | ⟨hxa, he⟩) | ⟨p, hp, hpa, he⟩)
              · exact Or.inl hm
              · exact Or.inr ⟨(i, (a, q)), Or.inl rfl, hxa.symm, he⟩
              · exact Or.inr ⟨p, Or.inr hp, hpa, he⟩
            · rintro (hm | ⟨p, hp | hp, hpa, he⟩)
              · exact Or.inl (Or.inl hm)
              · rw [hp] at hpa he
                exact Or.inl (Or.inr ⟨hpa.symm, he⟩)
              · exact Or.inr ⟨p, hp, hpa, he⟩
    · rw [if_neg hd] at h
      exact Except.noConfusion h

/-- The leg loop preserves accumulator well-formedness. -/
theorem pl_ok_wf {decl : List String} {g : String} {t : RealTransaction} :
    ∀ {legs : List (String × ℚ)} {i : Nat} {sum : ℚ} {T L : AccMap}
      {s2 : ℚ} {T2 L2 : AccMap},
      processLegsFrom decl g t i legs sum T L = .ok (s2, T2, L2) →
      MapWf T → MapWf L → MapWf T2 ∧ MapWf L2 := by
  intro legs
  induction legs with
  | nil =>
    intro i sum T L s2 T2 L2 h hT hL
    simp only [processLegsFrom, Except.ok.injEq, Prod.mk.injEq] at h
    rw [← h.2.1, ← h.2.2]
    exact ⟨hT, hL⟩
  | cons l rest ih =>
    intro i sum T L s2 T2 L2 h hT hL
    obtain ⟨a, q⟩ := l
    rw [processLegsFrom_cons] at h
    by_cases hd : a ∈ decl
    · rw [if_pos hd] at h
      rcases h1 : applyLeg T a q (legTransfer g t i (a, q)) with _ | T1 <;> rw [h1] at h
      · exact Except.noConfusion h
      · rcases h2 : applyLeg L a q (legTransfer g t i (a, q)) with _ | L1 <;> rw [h2] at h
        · exact Except.noConfusion h
        · exact ih h (applyLeg_wf hT h1 rfl) (applyLeg_wf hL h2 rfl)
    · rw [if_neg hd] at h
      exact Except.noConfusion h

/-- Account presence recorded by the leg loop. -/
theorem pl_ok_isSome {decl : List String} {g : String} {t : RealTransaction} :
    ∀ {legs : List (String × ℚ)} {i : Nat} {sum : ℚ} {T L : AccMap}
      {s2 : ℚ} {T2 L2 : AccMap},
      processLegsFrom decl g t i legs sum T L = .ok (s2, T2, L2) →
      ∀ A,
        ((lookupAccount T2 A).isSome ↔ (lookupAccount T A).isSome ∨ A ∈ legs.map Prod.fst) ∧
        ((lookupAccount L2 A).isSome ↔ (lookupAccount L A).isSome ∨ A ∈ legs.map Prod.fst) := by
  intro legs
  induction legs with
  | nil =>
    intro i sum T L s2 T2 L2 h A
    simp only [processLegsFrom, Except.ok.injEq, Prod.mk.injEq] at h
    rw [← h.2.1, ← h.2.2]
    simp
  | cons l rest ih =>
    intro i sum T L s2 T2 L2 h A
    obtain ⟨a, q⟩ := l
    rw [processLegsFrom_cons] at h
    by_cases hd : a ∈ decl
    · rw [if_pos hd] at h
      rcases h1 : applyLeg T a q (legTransfer g t i (a, q)) with _ | T1 <;> rw [h1] at h
      · exact Except.noConfusion h
      · rcases h2 : applyLeg L a q (legTransfer g t i (a, q)) with _ | L1 <;> rw [h2] at h
        · exact Except.noConfusion h
        · obtain ⟨hTm, hLm⟩ := ih h A
          rw [hTm, hLm, applyLeg_isSome h1 A, applyLeg_isSome h2 A]
          simp only [List.map_cons, List.mem_cons]
          constructor <;> tauto
    · rw [if_neg hd] at h
      exact Except.noConfusion h

/-- Error inversion for the leg loop: a failure is an undeclared account of
one of the legs, or a duplicate transfer of this transaction. -/
theorem pl_error {decl : List String} {g : String} {t : RealTransaction} :
    ∀ {legs : List (String × ℚ)} {i : Nat} {sum : ℚ} {T L : AccMap} {e : CalcError},
      processLegsFrom decl g t i legs sum T L = .error e →
      (∃ l ∈ legs, l.1 ∉ decl ∧ e = .UndeclaredAccount t.name l.1) ∨
        e = .DuplicateTransfer t := by
  intro legs
  induction legs with
  | nil =>
    intro i sum T L e h
    simp only [processLegsFrom] at h
    exact Except.noConfusion h
  | cons l rest ih =>
    intro i sum T L e h
    obtain ⟨a, q⟩ := l
    rw [processLegsFrom_cons] at h
    by_cases hd : a ∈ decl
    · rw [if_pos hd] at h
      rcases h1 : applyLeg T a q (legTransfer g t i (a, q)) with _ | T1 <;> rw [h1] at h
      · rw [Except.error.injEq] at h
        exact Or.inr h.symm
      · rcases h2 : applyLeg L a q (legTransfer g t i (a, q)) with _ | L1 <;> rw [h2] at h
        · rw [Except.error.injEq] at h
          exact Or.inr h.symm
        · rcases ih h with ⟨l2, hl2, hnd, he⟩ | he
          · exact Or.inl ⟨l2, List.mem_cons_of_mem _ hl2, hnd, he⟩
          · exact Or.inr he
    · rw [if_neg hd] at h
      rw [Except.error.injEq] at h
      exact Or.inl ⟨(a, q), List.mem_cons_self _ _, hd, h.symm⟩

/-- Rerunning the leg loop with the local accumulator in both positions
reproduces the local accumulator in both positions: the local component never
depends on the global one once the run succeeds. -/
theorem pl_loc {decl : List String} {g : String} {t : RealTransaction} :
    ∀ {legs : List (String × ℚ)} {i : Nat} {sum : ℚ} {T L : AccMap}
      {s2 : ℚ} {T2 L2 : AccMap},
      processLegsFrom decl g t i legs sum T L = .ok (s2, T2, L2) →
      processLegsFrom decl g t i legs sum L L = .ok (s2, L2, L2) := by
  intro legs
  induction legs with
  | nil =>
    intro i sum T L s2 T2 L2 h
    simp only [processLegsFrom, Except.ok.injEq, Prod.mk.injEq] at h ⊢
    exact ⟨h.1, h.2.2, h.2.2⟩
  | cons l rest ih =>
    intro i sum T L s2 T2 L2 h
    obtain ⟨a, q⟩ := l
    rw [processLegsFrom_cons] at h ⊢
    by_cases hd : a ∈ decl
    · rw [if_pos hd] at h ⊢
      rcases h1 : applyLeg T a q (legTransfer g t i (a, q)) with _ | T1 <;> rw [h1] at h
      · exact Except.noConfusion h
      · rcases h2 : applyLeg L a q (legTransfer g t i (a, q)) with _ | L1 <;> rw [h2] at h
        · exact Except.noConfusion h
        · exact ih h
    · rw [if_neg hd] at h
      exact Except.noConfusion h

/-- Progress for the leg loop: declared accounts and fresh, pairwise distinct
transfers process without error. -/
theorem pl_progress {decl : List String} {g : String} {t : RealTransaction} :
    ∀ {legs : List (String × ℚ)} {i : Nat} {sum : ℚ} {T L : AccMap},
      (∀ l ∈ legs, l.1 ∈ decl) →
      MapWf T → MapWf L →
      (∀ p ∈ legs.enumFrom i, ∀ x, legTransfer g t p.1 p.2 ∉ transfersOf T x) →
      (∀ p ∈ legs.enumFrom i, ∀ x, legTransfer g t p.1 p.2 ∉ transfersOf L x) →
      (legs.enumFrom i).Pairwise
        (fun p p2 => legTransfer g t p.1 p.2 ≠ legTransfer g t p2.1 p2.2) →
      ∃ s2 T2 L2, processLegsFrom decl g t i legs sum T L = .ok (s2, T2, L2) := by
  intro legs
  induction legs with
  | nil =>
    intro i sum T L _ _ _ _ _ _
    exact ⟨sum, T, L, rfl⟩
  | cons l rest ih =>
    intro i sum T L hdecl hTwf hLwf hfT hfL hpw
    obtain ⟨a, q⟩ := l
    simp only [List.enumFrom] at hfT hfL hpw
    rw [List.pairwise_cons] at hpw
    rw [processLegsFrom_cons, if_pos (hdecl (a, q) (List.mem_cons_self _ _))]
    rcases h1 : applyLeg T a q (legTransfer g t i (a, q)) with _ | T1
    · exfalso
      have := (applyLeg_none_iff (hTwf.sorted a)).mp h1
      exact hfT (i, (a, q)) (List.mem_cons_self _ _) a this
    · rcases h2 : applyLeg L a q (legTransfer g t i (a, q)) with _ | L1
      · exfalso
        have := (applyLeg_none_iff (hLwf.sorted a)).mp h2
        exact hfL (i, (a, q)) (List.mem_cons_self _ _) a this
      · refine ih (fun l2 hl2 => hdecl l2 (List.mem_cons_of_mem _ hl2))
          (applyLeg_wf hTwf h1 rfl) (applyLeg_wf hLwf h2 rfl) ?_ ?_ hpw.2
        · intro p hp x hmem
          rw [applyLeg_mem h1 x _] at hmem
          rcases hmem with hm | ⟨_, he⟩
          · exact hfT p (List.mem_cons_of_mem _ hp) x hm
          · exact hpw.1 p hp he.symm
        · intro p hp x hmem
          rw [applyLeg_mem h2 x _] at hmem
          rcases hmem with hm | ⟨_, he⟩
          · exact hfL p (List.mem_cons_of_mem _ hp) x hm
          · exact hpw.1 p hp he.symm

/-! ## One transaction -/

theorem processTransaction_of_pl_ok {decl : List String} {g : String} {t : RealTransaction}
    {T L : AccMap} {s : ℚ} {T2 L2 : AccMap}
    (hpl : processLegsFrom decl g t 0 t.transfers 0 T L = .ok (s, T2, L2)) :
    processTransaction decl g T L t =
      if s ≠ 0 then .error (.UnbalancedTransaction t.name s) else .ok (T2, L2) := by
  unfold processTransaction
  rw [hpl]

theorem processTransaction_of_pl_error {decl : List String} {g : String}
    {t : RealTransaction} {T L : AccMap} {e : CalcError}
    (hpl : processLegsFrom decl g t 0 t.transfers 0 T L = .error e) :
    processTransaction decl g T L t = .error e := by
  unfold processTransaction
  rw [hpl]

/-- Inversion for a successful transaction: the leg loop succeeded with the
same accumulators and the transaction's legs total zero. -/
theorem pt_ok_inv {decl : List String} {g : String} {t : RealTransaction}
    {T L : AccMap} {T2 L2 : AccMap}
    (h : processTransaction decl g T L t = .ok (T2, L2)) :
    processLegsFrom decl g t 0 t.transfers 0 T L = .ok (legsTotal t.transfers, T2, L2) ∧
      legsTotal t.transfers = 0 := by
  rcases hpl : processLegsFrom decl g t 0 t.transfers 0 T L with e | ⟨s, T2x, L2x⟩
  · rw [processTransaction_of_pl_error hpl] at h
    exact Except.noConfusion h
  · have hsum : s = legsTotal t.transfers := by
      have := pl_ok_sum hpl
      rw [this, zero_add]
    rw [processTransaction_of_pl_ok hpl] at h
    by_cases hs : s ≠ 0
    · rw [if_pos hs] at h
      exact Except.noConfusion h
    · rw [if_neg hs] at h
      rw [Except.ok.injEq, Prod.mk.injEq] at h
      rw [not_not] at hs
      have hlz : legsTotal t.transfers = 0 := by rw [← hsum]; exact hs
      exact ⟨by rw [hsum, h.1, h.2], hlz⟩

theorem pt_ok_balanced {decl : List String} {g : String} {t : RealTransaction}
    {T L : AccMap} {T2 L2 : AccMap}
    (h : processTransaction decl g T L t = .ok (T2, L2)) :
    computedSum t.transfers = 0 := by
  rw [computedSum_eq]
  exact (pt_ok_inv h).2

theorem pt_ok_sumOf {decl : List String} {g : String} {t : RealTransaction}
    {T L : AccMap} {T2 L2 : AccMap}
    (h : processTransaction decl g T L t = .ok (T2, L2)) (A : String) :
    sumOf T2 A = sumOf T A + legsFor t.transfers A ∧
      sumOf L2 A = sumOf L A + legsFor t.transfers A :=
  pl_ok_sumOf (pt_ok_inv h).1 A

theorem pt_ok_mem {decl : List String} {g : String} {t : RealTransaction}
    {T L : AccMap} {T2 L2 : AccMap}
    (h : processTransaction decl g T L t = .ok (T2, L2)) (A : String) (u : Transfer) :
    (u ∈ transfersOf T2 A ↔ u ∈ transfersOf T A ∨
      ∃ p ∈ t.transfers.enumFrom 0, p.2.1 = A ∧ u = legTransfer g t p.1 p.2) ∧
    (u ∈ transfersOf L2 A ↔ u ∈ transfersOf L A ∨
      ∃ p ∈ t.transfers.enumFrom 0, p.2.1 = A ∧ u = legTransfer g t p.1 p.2) :=
  pl_ok_mem (pt_ok_inv h).1 A u

theorem pt_ok_wf {decl : List String} {g : String} {t : RealTransaction}
    {T L : AccMap} {T2 L2 : AccMap}
    (h : processTransaction decl g T L t = .ok (T2, L2)) (hT : MapWf T) (hL : MapWf L) :
    MapWf T2 ∧ MapWf L2 :=
  pl_ok_wf (pt_ok_inv h).1 hT hL

theorem pt_ok_isSome {decl : List String} {g : String} {t : RealTransaction}
    {T L : AccMap} {T2 L2 : AccMap}
    (h : processTransaction decl g T L t = .ok (T2, L2)) (A : String) :
    ((lookupAccount T2 A).isSome ↔
      (lookupAccount T A).isSome ∨ A ∈ t.transfers.map Prod.fst) ∧
    ((lookupAccount L2 A).isSome ↔
      (lookupAccount L A).isSome ∨ A ∈ t.transfers.map Prod.fst) :=
  pl_ok_isSome (pt_ok_inv h).1 A

theorem pl_ok_declared {decl : List String} {g : String} {t : RealTransaction} :
    ∀ {legs : List (String × ℚ)} {i : Nat} {sum : ℚ} {T L : AccMap}
      {s2 : ℚ} {T2 L2 : AccMap},
      processLegsFrom decl g t i legs sum T L = .ok (s2, T2, L2) →
      ∀ l ∈ legs, l.1 ∈ decl := by
  intro legs
  induction legs with
  | nil =>
    intro i sum T L s2 T2 L2 h l hl
    cases hl
  | cons l0 rest ih =>
    intro i sum T L s2 T2 L2 h l hl
    obtain ⟨a, q⟩ := l0
    rw [processLegsFrom_cons] at h
    by_cases hd : a ∈ decl
    · rw [if_pos hd] at h
      rcases h1 : applyLeg T a q (legTransfer g t i (a, q)) with _ | T1 <;> rw [h1] at h
      · exact Except.noConfusion h
      · rcases h2 : applyLeg L a q (legTransfer g t i (a, q)) with _ | L1 <;> rw [h2] at h
        · exact Except.noConfusion h
        · rcases List.mem_cons.mp hl with he | hm
          · rw [he]
            exact hd
          · exact ih h l hm
    · rw [if_neg hd] at h
      exact Except.noConfusion h

theorem pt_ok_declared {decl : List String} {g : String} {t : RealTransaction}
    {T L : AccMap} {T2 L2 : AccMap}
    (h : processTransaction decl g T L t = .ok (T2, L2)) :
    ∀ l ∈ t.transfers, l.1 ∈ decl :=
  pl_ok_declared (pt_ok_inv h).1

theorem pt_loc {decl : List String} {g : String} {t : RealTransaction}
    {T L : AccMap} {T2 L2 : AccMap}
    (h : processTransaction decl g T L t = .ok (T2, L2)) :
    processTransaction decl g L L t = .ok (L2, L2) := by
  obtain ⟨hpl, hz⟩ := pt_ok_inv h
  rw [processTransaction_of_pl_ok (pl_loc hpl), if_neg (by rw [hz]; exact not_not_intro rfl)]

theorem pt_error {decl : List String} {g : String} {t : RealTransaction}
    {T L : AccMap} {e : CalcError}
    (h : processTransaction decl g T L t = .error e) :
    (∃ l ∈ t.transfers, l.1 ∉ decl ∧ e = .UndeclaredAccount t.name l.1) ∨
      e = .DuplicateTransfer t ∨
      (computedSum t.transfers ≠ 0 ∧
        e = .UnbalancedTransaction t.name (computedSum t.transfers)) := by
  rcases hpl : processLegsFrom decl g t 0 t.transfers 0 T L with e2 | ⟨s, T2x, L2x⟩
  · rw [processTransaction_of_pl_error hpl, Except.error.injEq] at h
    rw [← h]
    rcases pl_error hpl with h1 | h2
    · exact Or.inl h1
    · exact Or.inr (Or.inl h2)
  · have hsum : s = computedSum t.transfers := by
      rw [computedSum_eq]
      have := pl_ok_sum hpl
      rw [this, zero_add]
    rw [processTransaction_of_pl_ok hpl] at h
    by_cases hs : s ≠ 0
    · rw [if_pos hs] at h
      rw [Except.error.injEq] at h
      refine Or.inr (Or.inr ⟨by rw [← hsum]; exact hs, ?_⟩)
      rw [← h, hsum]
    · rw [if_neg hs] at h
      exact Except.noConfusion h

theorem pt_progress {decl : List String} {g : String} {t : RealTransaction}
    {T L : AccMap}
    (hdecl : ∀ l ∈ t.transfers, l.1 ∈ decl)
    (hbal : computedSum t.transfers = 0)
    (hTwf : MapWf T) (hLwf : MapWf L)
    (hfT : ∀ u ∈ txnTransfers g t, ∀ x, u ∉ transfersOf T x)
    (hfL : ∀ u ∈ txnTransfers g t, ∀ x, u ∉ transfersOf L x)
    (hpw : (txnTransfers g t).Pairwise (· ≠ ·)) :
    ∃ T2 L2, processTransaction decl g T L t = .ok (T2, L2) := by
  have hfT2 : ∀ p ∈ t.transfers.enumFrom 0, ∀ x, legTransfer g t p.1 p.2 ∉ transfersOf T x := by
    intro p hp x
    exact hfT _ (List.mem_map_of_mem _ hp) x
  have hfL2 : ∀ p ∈ t.transfers.enumFrom 0, ∀ x, legTransfer g t p.1 p.2 ∉ transfersOf L x := by
    intro p hp x
    exact hfL _ (List.mem_map_of_mem _ hp) x
  have hpw2 : (t.transfers.enumFrom 0).Pairwise
      (fun p p2 => legTransfer g t p.1 p.2 ≠ legTransfer g t p2.1 p2.2) := by
    rw [txnTransfers, List.pairwise_map] at hpw
    exact hpw
  obtain ⟨s, T2, L2, hpl⟩ := pl_progress hdecl hTwf hLwf hfT2 hfL2 hpw2
  have hsum : s = computedSum t.transfers := by
    rw [computedSum_eq]
    have := pl_ok_sum hpl
    rw [this, zero_add]
  refine ⟨T2, L2, ?_⟩
  rw [processTransaction_of_pl_ok hpl, if_neg ?_]
  rw [hsum, hbal]
  exact not_not_intro rfl

/-! ## The transaction loop -/

theorem processTransactions_cons (decl : List String) (g : String) (total loc : AccMap)
    (t : RealTransaction) (ts : List RealTransaction) :
    processTransactions decl g total loc (t :: ts) =
      match processTransaction decl g total loc t with
      | .error e => .error e
      | .ok (total2, loc2) => processTransactions decl g total2 loc2 ts := rfl

theorem txnsFor_cons (t : RealTransaction) (ts : List RealTransaction) (A : String) :
    txnsFor (t :: ts) A = legsFor t.transfers A + txnsFor ts A := by
  simp [txnsFor]

theorem txnsTransfers_cons (g : String) (t : RealTransaction) (ts : List RealTransaction) :
    txnsTransfers g (t :: ts) = txnTransfers g t ++ txnsTransfers g ts := by
  simp [txnsTransfers]

theorem isOccTransfer_cons {g : String} {t : RealTransaction} {ts : List RealTransaction}
    {A : String} {u : Transfer} :
    IsOccTransfer g (t :: ts) A u ↔
      (∃ p ∈ t.transfers.enumFrom 0, p.2.1 = A ∧ u = legTransfer g t p.1 p.2) ∨
        IsOccTransfer g ts A u := by
  unfold IsOccTransfer
  constructor
  · rintro ⟨t2, ht2, p, hp, hpa, he⟩
    rcases List.mem_cons.mp ht2 with h2 | h2
    · subst h2
      exact Or.inl ⟨p, hp, hpa, he⟩
    · exact Or.inr ⟨t2, h2, p, hp, hpa, he⟩
  · rintro (⟨p, hp, hpa, he⟩ | ⟨t2, h2, p, hp, hpa, he⟩)
    · exact ⟨t, List.mem_cons_self _ _, p, hp, hpa, he⟩
    · exact ⟨t2, List.mem_cons_of_mem _ h2, p, hp, hpa, he⟩

theorem pts_ok_sumOf {decl : List String} {g : String} :
    ∀ {ts : List RealTransaction} {T L : AccMap} {T2 L2 : AccMap},
      processTransactions decl g T L ts = .ok (T2, L2) →
      ∀ A, sumOf T2 A = sumOf T A + txnsFor ts A ∧
        sumOf L2 A = sumOf L A + txnsFor ts A := by
  intro ts
  induction ts with
  | nil =>
    intro T L T2 L2 h A
    simp only [processTransactions, Except.ok.injEq, Prod.mk.injEq] at h
    rw [← h.1, ← h.2]
    simp [txnsFor]
  | cons t rest ih =>
    intro T L T2 L2 h A
    rw [processTransactions_cons] at h
    rcases h0 : processTransaction decl g T L t with e | ⟨T1, L1⟩ <;> rw [h0] at h
    · exact Except.noConfusion h
    · obtain ⟨hT, hL⟩ := ih h A
      obtain ⟨hT0, hL0⟩ := pt_ok_sumOf h0 A
      rw [hT, hL, hT0, hL0, txnsFor_cons]
      constructor <;> ring

theorem pts_ok_mem {decl : List String} {g : String} :
    ∀ {ts : List RealTransaction} {T L : AccMap} {T2 L2 : AccMap},
      processTransactions decl g T L ts = .ok (T2, L2) →
      ∀ A u,
        (u ∈ transfersOf T2 A ↔ u ∈ transfersOf T A ∨ IsOccTransfer g ts A u) ∧
        (u ∈ transfersOf L2 A ↔ u ∈ transfersOf L A ∨ IsOccTransfer g ts A u) := by
  intro ts
  induction ts with
  | nil =>
    intro T L T2 L2 h A u
    simp only [processTransactions, Except.ok.injEq, Prod.mk.injEq] at h
    rw [← h.1, ← h.2]
    simp [IsOccTransfer]
  | cons t rest ih =>
    intro T L T2 L2 h A u
    rw [processTransactions_cons] at h
    rcases h0 : processTransaction decl g T L t with e | ⟨T1, L1⟩ <;> rw [h0] at h
    · exact Except.noConfusion h
    · obtain ⟨hT, hL⟩ := ih h A u
      obtain ⟨hT0, hL0⟩ := pt_ok_mem h0 A u
      rw [hT, hL, hT0, hL0, isOccTransfer_cons]
      exact ⟨or_assoc, or_assoc⟩

theorem pts_ok_wf {decl : List String} {g : String} :
    ∀ {ts : List RealTransaction} {T L : AccMap} {T2 L2 : AccMap},
      processTransactions decl g T L ts = .ok (T2, L2) →
      MapWf T → MapWf L → MapWf T2 ∧ MapWf L2 := by
  intro ts
  induction ts with
  | nil =>
    intro T L T2 L2 h hT hL
    simp only [processTransactions, Except.ok.injEq, Prod.mk.injEq] at h
    rw [← h.1, ← h.2]
    exact ⟨hT, hL⟩
  | cons t rest ih =>
    intro T L T2 L2 h hT hL
    rw [processTransactions_cons] at h
    rcases h0 : processTransaction decl g T L t with e | ⟨T1, L1⟩ <;> rw [h0] at h
    · exact Except.noConfusion h
    · obtain ⟨hT1, hL1⟩ := pt_ok_wf h0 hT hL
      exact ih h hT1 hL1

theorem pts_ok_isSome {decl : List String} {g : String} :
    ∀ {ts : List RealTransaction} {T L : AccMap} {T2 L2 : AccMap},
      processTransactions decl g T L ts = .ok (T2, L2) →
      ∀ A,
        ((lookupAccount T2 A).isSome ↔
          (lookupAccount T A).isSome ∨ A ∈ legAccounts ts) ∧
        ((lookupAccount L2 A).isSome ↔
          (lookupAccount L A).isSome ∨ A ∈ legAccounts ts) := by
  intro ts
  induction ts with
  | nil =>
    intro T L T2 L2 h A
    simp only [processTransactions, Except.ok.injEq, Prod.mk.injEq] at h
    rw [← h.1, ← h.2]
    simp [legAccounts]
  | cons t rest ih =>
    intro T L T2 L2 h A
    rw [processTransactions_cons] at h
    rcases h0 : processTransaction decl g T L t with e | ⟨T1, L1⟩ <;> rw [h0] at h
    · exact Except.noConfusion h
    · obtain ⟨hT, hL⟩ := ih h A
      obtain ⟨hT0, hL0⟩ := pt_ok_isSome h0 A
      rw [hT, hL, hT0, hL0]
      have hacc : A ∈ legAccounts (t :: rest) ↔
          A ∈ t.transfers.map Prod.fst ∨ A ∈ legAccounts rest := by
        simp [legAccounts]
      rw [hacc]
      exact ⟨or_assoc, or_assoc⟩

theorem pts_ok_declared {decl : List String} {g : String} :
    ∀ {ts : List RealTransaction} {T L : AccMap} {T2 L2 : AccMap},
      processTransactions decl g T L ts = .ok (T2, L2) →
      ∀ t ∈ ts, ∀ l ∈ t.transfers, l.1 ∈ decl := by
  intro ts
  induction ts with
  | nil =>
    intro T L T2 L2 h t ht
    cases ht
  | cons t0 rest ih =>
    intro T L T2 L2 h t ht
    rw [processTransactions_cons] at h
    rcases h0 : processTransaction decl g T L t0 with e | ⟨T1, L1⟩ <;> rw [h0] at h
    · exact Except.noConfusion h
    · rcases List.mem_cons.mp ht with he | hm
      · rw [he]
        exact pt_ok_declared h0
      · exact ih h t hm

theorem pts_ok_balanced {decl : List String} {g : String} :
    ∀ {ts : List RealTransaction} {T L : AccMap} {T2 L2 : AccMap},
      processTransactions decl g T L ts = .ok (T2, L2) →
      ∀ t ∈ ts, computedSum t.transfers = 0 := by
  intro ts
  induction ts with
  | nil =>
    intro T L T2 L2 h t ht
    cases ht
  | cons t0 rest ih =>
    intro T L T2 L2 h t ht
    rw [processTransactions_cons] at h
    rcases h0 : processTransaction decl g T L t0 with e | ⟨T1, L1⟩ <;> rw [h0] at h
    · exact Except.noConfusion h
    · rcases List.mem_cons.mp ht with he | hm
      · rw [he]
        exact pt_ok_balanced h0
      · exact ih h t hm

theorem pts_loc {decl : List String} {g : String} :
    ∀ {ts : List RealTransaction} {T L : AccMap} {T2 L2 : AccMap},
      processTransactions decl g T L ts = .ok (T2, L2) →
      processTransactions decl g L L ts = .ok (L2, L2) := by
  intro ts
  induction ts with
  | nil =>
    intro T L T2 L2 h
    simp only [processTransactions, Except.ok.injEq, Prod.mk.injEq] at h ⊢
    exact ⟨h.2, h.2⟩
  | cons t rest ih =>
    intro T L T2 L2 h
    rw [processTransactions_cons] at h
    rw [processTransactions_cons]
    rcases h0 : processTransaction decl g T L t with e | ⟨T1, L1⟩ <;> rw [h0] at h
    · exact Except.noConfusion h
    · rw [pt_loc h0]
      exact ih h

theorem pts_error {decl : List String} {g : String} :
    ∀ {ts : List RealTransaction} {T L : AccMap} {e : CalcError},
      processTransactions decl g T L ts = .error e →
      ∃ t ∈ ts,
        (∃ l ∈ t.transfers, l.1 ∉ decl ∧ e = .UndeclaredAccount t.name l.1) ∨
          e = .DuplicateTransfer t ∨
          (computedSum t.transfers ≠ 0 ∧
            e = .UnbalancedTransaction t.name (computedSum t.transfers)) := by
  intro ts
  induction ts with
  | nil =>
    intro T L e h
    simp only [processTransactions] at h
    exact Except.noConfusion h
  | cons t rest ih =>
    intro T L e h
    rw [processTransactions_cons] at h
    rcases h0 : processTransaction decl g T L t with e2 | ⟨T1, L1⟩ <;> rw [h0] at h
    · rw [Except.error.injEq] at h
      rw [← h]
      exact ⟨t, List.mem_cons_self _ _, pt_error h0⟩
    · obtain ⟨t2, ht2, hsh⟩ := ih h
      exact ⟨t2, List.mem_cons_of_mem _ ht2, hsh⟩

theorem pts_progress {decl : List String} {g : String} :
    ∀ {ts : List RealTransaction} {T L : AccMap},
      (∀ t ∈ ts, ∀ l ∈ t.transfers, l.1 ∈ decl) →
      (∀ t ∈ ts, computedSum t.transfers = 0) →
      MapWf T → MapWf L →
      (∀ u ∈ txnsTransfers g ts, ∀ x, u ∉ transfersOf T x) →
      (∀ u ∈ txnsTransfers g ts, ∀ x, u ∉ transfersOf L x) →
      (txnsTransfers g ts).Pairwise (· ≠ ·) →
      ∃ T2 L2, processTransactions decl g T L ts = .ok (T2, L2) := by
  intro ts
  induction ts with
  | nil =>
    intro T L _ _ _ _ _ _ _
    exact ⟨T, L, rfl⟩
  | cons t rest ih =>
    intro T L hdecl hbal hTwf hLwf hfT hfL hpw
    rw [txnsTransfers_cons] at hfT hfL hpw
    rw [List.pairwise_append] at hpw
    obtain ⟨T1, L1, h0⟩ := pt_progress (hdecl t (List.mem_cons_self _ _))
      (hbal t (List.mem_cons_self _ _)) hTwf hLwf
      (fun u hu x => hfT u (List.mem_append_left _ hu) x)
      (fun u hu x => hfL u (List.mem_append_left _ hu) x)
      hpw.1
    obtain ⟨hT1wf, hL1wf⟩ := pt_ok_wf h0 hTwf hLwf
    have hmemT := pt_ok_mem h0
    have hstep : ∀ u ∈ txnsTransfers g rest, ∀ x,
        (u ∉ transfersOf T1 x) ∧ (u ∉ transfersOf L1 x) := by
      intro u hu x
      obtain ⟨hTm, hLm⟩ := hmemT x u
      constructor
      · rw [hTm]
        rintro (hm | ⟨p, hp, hpa, he⟩)
        · exact hfT u (List.mem_append_right _ hu) x hm
        · refine hpw.2.2 (legTransfer g t p.1 p.2) ?_ u hu he.symm
          exact List.mem_map_of_mem _ hp
      · rw [hLm]
        rintro (hm | ⟨p, hp, hpa, he⟩)
        · exact hfL u (List.mem_append_right _ hu) x hm
        · refine hpw.2.2 (legTransfer g t p.1 p.2) ?_ u hu he.symm
          exact List.mem_map_of_mem _ hp
    obtain ⟨T2, L2, hrest⟩ := ih
      (fun t2 ht2 => hdecl t2 (List.mem_cons_of_mem _ ht2))
      (fun t2 ht2 => hbal t2 (List.mem_cons_of_mem _ ht2))
      hT1wf hL1wf
      (fun u hu x => (hstep u hu x).1)
      (fun u hu x => (hstep u hu x).2)
      hpw.2.1
    refine ⟨T2, L2, ?_⟩
    rw [processTransactions_cons, h0]
    exact hrest

/-! ## The category rollup -/

theorem sumCategory_go (m : AccMap) :
    ∀ (accts : List String) (q0 : ℚ) (l0 : List SummedAccount),
      accts.foldl
        (fun acc account =>
          match lookupAccount m account with
          | some sa => (decAdd acc.1 sa.sum, acc.2 ++ [sa])
          | none => acc)
        (q0, l0) =
      (q0 + ((accts.filterMap (lookupAccount m)).map SummedAccount.sum).sum,
        l0 ++ accts.filterMap (lookupAccount m)) := by
  intro accts
  induction accts with
  | nil =>
    intro q0 l0
    simp
  | cons a rest ih =>
    intro q0 l0
    rw [List.foldl_cons, List.filterMap_cons]
    rcases hl : lookupAccount m a with _ | sa
    · rw [ih]
    · rw [ih, decAdd_eq]
      simp only [List.map_cons, List.sum_cons, List.append_assoc, List.singleton_append]
      rw [add_assoc]

/-- The rollup of one category: its members are exactly the declared member
accounts present in the accumulator, in declaration order, and its total is
the sum of their recorded totals. -/
theorem sumCategory_spec (m : AccMap) (accts : List String) :
    sumCategory m accts =
      (((accts.filterMap (lookupAccount m)).map SummedAccount.sum).sum,
        accts.filterMap (lookupAccount m)) := by
  unfold sumCategory
  rw [sumCategory_go]
  rw [zero_add, List.nil_append]

/-! ## The grouping loop -/

theorem processGroupings_cons (data : RealBookkeeping) (total : AccMap)
    (acc : List (String × SummedGrouping)) (g : RealGrouping) (gs : List RealGrouping) :
    processGroupings data total acc (g :: gs) =
      match processTransactions data.accounts g.name total [] g.transactions with
      | .error e => .error e
      | .ok (total2, loc) =>
        processGroupings data total2 (acc ++ [(g.name, groupingRollup data loc)]) gs := rfl

theorem pg_ok_sumOf {data : RealBookkeeping} :
    ∀ {gs : List RealGrouping} {T : AccMap} {acc : List (String × SummedGrouping)}
      {Tf : AccMap} {accf : List (String × SummedGrouping)},
      processGroupings data T acc gs = .ok (Tf, accf) →
      ∀ A, sumOf Tf A = sumOf T A + groupingsFor gs A := by
  intro gs
  induction gs with
  | nil =>
    intro T acc Tf accf h A
    simp only [processGroupings, Except.ok.injEq, Prod.mk.injEq] at h
    rw [← h.1]
    simp [groupingsFor]
  | cons g rest ih =>
    intro T acc Tf accf h A
    rw [processGroupings_cons] at h
    rcases h0 : processTransactions data.accounts g.name T [] g.transactions
      with e | ⟨T1, loc⟩ <;> rw [h0] at h
    · exact Except.noConfusion h
    · rw [ih h A, (pts_ok_sumOf h0 A).1]
      simp only [groupingsFor, List.map_cons, List.sum_cons]
      ring

theorem pg_ok_mem {data : RealBookkeeping} :
    ∀ {gs : List RealGrouping} {T : AccMap} {acc : List (String × SummedGrouping)}
      {Tf : AccMap} {accf : List (String × SummedGrouping)},
      processGroupings data T acc gs = .ok (Tf, accf) →
      ∀ A u, u ∈ transfersOf Tf A ↔ u ∈ transfersOf T A ∨
        ∃ g ∈ gs, IsOccTransfer g.name g.transactions A u := by
  intro gs
  induction gs with
  | nil =>
    intro T acc Tf accf h A u
    simp only [processGroupings, Except.ok.injEq, Prod.mk.injEq] at h
    rw [← h.1]
    simp
  | cons g rest ih =>
    intro T acc Tf accf h A u
    rw [processGroupings_cons] at h
    rcases h0 : processTransactions data.accounts g.name T [] g.transactions
      with e | ⟨T1, loc⟩ <;> rw [h0] at h
    · exact Except.noConfusion h
    · rw [ih h A u, (pts_ok_mem h0 A u).1]
      constructor
      · rintro ((hm | hocc) | ⟨g2, hg2, hocc⟩)
        · exact Or.inl hm
        · exact Or.inr ⟨g, List.mem_cons_self _ _, hocc⟩
        · exact Or.inr ⟨g2, List.mem_cons_of_mem _ hg2, hocc⟩
      · rintro (hm | ⟨g2, hg2, hocc⟩)
        · exact Or.inl (Or.inl hm)
        · rcases List.mem_cons.mp hg2 with he | h2
          · subst he
            exact Or.inl (Or.inr hocc)
          · exact Or.inr ⟨g2, h2, hocc⟩

theorem pg_ok_wf {data : RealBookkeeping} :
    ∀ {gs : List RealGrouping} {T : AccMap} {acc : List (String × SummedGrouping)}
      {Tf : AccMap} {accf : List (String × SummedGrouping)},
      processGroupings data T acc gs = .ok (Tf, accf) →
      MapWf T → MapWf Tf := by
  intro gs
  induction gs with
  | nil =>
    intro T acc Tf accf h hT
    simp only [processGroupings, Except.ok.injEq, Prod.mk.injEq] at h
    rw [← h.1]
    exact hT
  | cons g rest ih =>
    intro T acc Tf accf h hT
    rw [processGroupings_cons] at h
    rcases h0 : processTransactions data.accounts g.name T [] g.transactions
      with e | ⟨T1, loc⟩ <;> rw [h0] at h
    · exact Except.noConfusion h
    · refine ih h (pts_ok_wf h0 hT ?_).1
      intro x sa hx
      exact Option.noConfusion hx

/-- What each period contributes to the output list: for every grouping, in
order, there is a local accumulator that reprocessing the grouping alone
reproduces, and the period's entry is its name with the rollup of that local
accumulator.  The local accumulator is well formed, holds exactly the
grouping's realized transfers, and sums its own legs. -/
theorem pg_ok_entries {data : RealBookkeeping} :
    ∀ {gs : List RealGrouping} {T : AccMap} {acc : List (String × SummedGrouping)}
      {Tf : AccMap} {accf : List (String × SummedGrouping)},
      processGroupings data T acc gs = .ok (Tf, accf) →
      MapWf T →
      ∃ tail, accf = acc ++ tail ∧ List.Forall₂
        (fun (g : RealGrouping) (e : String × SummedGrouping) =>
          ∃ loc,
            processTransactions data.accounts g.name [] [] g.transactions = .ok (loc, loc) ∧
            MapWf loc ∧
            (∀ A, (lookupAccount loc A).isSome ↔ A ∈ legAccounts g.transactions) ∧
            (∀ A, sumOf loc A = txnsFor g.transactions A) ∧
            (∀ A u, u ∈ transfersOf loc A ↔ IsOccTransfer g.name g.transactions A u) ∧
            e = (g.name, groupingRollup data loc)) gs tail := by
  intro gs
  induction gs with
  | nil =>
    intro T acc Tf accf h hT
    simp only [processGroupings, Except.ok.injEq, Prod.mk.injEq] at h
    exact ⟨[], by rw [← h.2, List.append_nil], List.Forall₂.nil⟩
  | cons g rest ih =>
    intro T acc Tf accf h hT
    rw [processGroupings_cons] at h
    rcases h0 : processTransactions data.accounts g.name T [] g.transactions
      with e | ⟨T1, loc⟩ <;> rw [h0] at h
    · exact Except.noConfusion h
    · have hLwf : MapWf ([] : AccMap) := fun x sa hx => Option.noConfusion hx
      obtain ⟨tail, htail, hall⟩ := ih h (pts_ok_wf h0 hT hLwf).1
      refine ⟨(g.name, groupingRollup data loc) :: tail, ?_, ?_⟩
      · rw [htail, List.append_assoc, List.singleton_append]
      · refine List.Forall₂.cons ⟨loc, pts_loc h0, (pts_ok_wf h0 hT hLwf).2, ?_, ?_, ?_, rfl⟩ hall
        · intro A
          rw [(pts_ok_isSome h0 A).2]
          simp [lookupAccount]
        · intro A
          rw [(pts_ok_sumOf h0 A).2]
          have hz : sumOf ([] : AccMap) A = 0 := rfl
          rw [hz, zero_add]
        · intro A u
          rw [(pts_ok_mem h0 A u).2]
          have hz : transfersOf ([] : AccMap) A = [] := rfl
          rw [hz]
          simp

theorem pg_error {data : RealBookkeeping} :
    ∀ {gs : List RealGrouping} {T : AccMap} {acc : List (String × SummedGrouping)}
      {e : CalcError},
      processGroupings data T acc gs = .error e →
      ∃ g ∈ gs, ∃ t ∈ g.transactions,
        (∃ l ∈ t.transfers, l.1 ∉ data.accounts ∧ e = .UndeclaredAccount t.name l.1) ∨
          e = .DuplicateTransfer t ∨
          (computedSum t.transfers ≠ 0 ∧
            e = .UnbalancedTransaction t.name (computedSum t.transfers)) := by
  intro gs
  induction gs with
  | nil =>
    intro T acc e h
    simp only [processGroupings] at h
    exact Except.noConfusion h
  | cons g rest ih =>
    intro T acc e h
    rw [processGroupings_cons] at h
    rcases h0 : processTransactions data.accounts g.name T [] g.transactions
      with e2 | ⟨T1, loc⟩ <;> rw [h0] at h
    · rw [Except.error.injEq] at h
      rw [← h]
      obtain ⟨t, ht, hsh⟩ := pts_error h0
      exact ⟨g, List.mem_cons_self _ _, t, ht, hsh⟩
    · obtain ⟨g2, hg2, t, ht, hsh⟩ := ih h
      exact ⟨g2, List.mem_cons_of_mem _ hg2, t, ht, hsh⟩

/-! ## The whole pass -/

theorem calculate_ok_inv {data : RealBookkeeping} {res : SummedBookkeeping}
    (h : calculate data = .ok res) :
    ∃ Tf periods, processGroupings data [] [] data.groupings = .ok (Tf, periods) ∧
      res = { name := data.name, total := groupingRollup data Tf, groupings := periods } := by
  unfold calculate at h
  rcases hpg : processGroupings data [] [] data.groupings with e | ⟨Tf, periods⟩ <;>
    rw [hpg] at h
  · exact Except.noConfusion h
  · rw [Except.ok.injEq] at h
    exact ⟨Tf, periods, rfl, h.symm⟩

theorem calculate_error_inv {data : RealBookkeeping} {e : CalcError}
    (h : calculate data = .error e) :
    processGroupings data [] [] data.groupings = .error e := by
  unfold calculate at h
  rcases hpg : processGroupings data [] [] data.groupings with e2 | ⟨Tf, periods⟩ <;>
    rw [hpg] at h
  · rw [Except.error.injEq] at h
    rw [← h]
  · exact Except.noConfusion h

theorem MapWf.empty : MapWf ([] : AccMap) := fun _ _ hx => Option.noConfusion hx

theorem forall2_exists_left {P : α → β → Prop} :
    ∀ {l1 : List α} {l2 : List β}, List.Forall₂ P l1 l2 → ∀ a ∈ l1, ∃ b ∈ l2, P a b := by
  intro l1
  induction l1 with
  | nil =>
    intro l2 h a ha
    cases ha
  | cons x xs ih =>
    intro l2 h a ha
    cases h with
    | cons hx hrest =>
      rcases List.mem_cons.mp ha with he | hm
      · subst he
        exact ⟨_, List.mem_cons_self _ _, hx⟩
      · obtain ⟨b, hb, hp⟩ := ih hrest a hm
        exact ⟨b, List.mem_cons_of_mem _ hb, hp⟩

theorem forall2_exists_right {P : α → β → Prop} :
    ∀ {l1 : List α} {l2 : List β}, List.Forall₂ P l1 l2 → ∀ b ∈ l2, ∃ a ∈ l1, P a b := by
  intro l1
  induction l1 with
  | nil =>
    intro l2 h b hb
    cases h
    cases hb
  | cons x xs ih =>
    intro l2 h b hb
    cases h with
    | cons hx hrest =>
      rcases List.mem_cons.mp hb with he | hm
      · subst he
        exact ⟨x, List.mem_cons_self _ _, hx⟩
      · obtain ⟨a, ha, hp⟩ := ih hrest b hm
        exact ⟨a, List.mem_cons_of_mem _ ha, hp⟩

theorem forall2_map_fst {gs : List RealGrouping} :
    ∀ {tail : List (String × SummedGrouping)},
      List.Forall₂ (fun (g : RealGrouping) (e : String × SummedGrouping) =>
        e.1 = g.name) gs tail →
      tail.map Prod.fst = gs.map RealGrouping.name := by
  induction gs with
  | nil =>
    intro tail h
    cases h
    rfl
  | cons g rest ih =>
    intro tail h
    cases h with
    | cons hx hrest =>
      simp only [List.map_cons]
      rw [hx, ih hrest]

/-- Every member aggregate of a rollup entry is looked up from the
accumulator, and every entry is the rollup of its table row. -/
theorem mem_rollup {α : Type} {m : AccMap} {tbl : List (α × List String)}
    {e : α × ℚ × List SummedAccount} (he : e ∈ rollup m tbl) :
    ∃ row ∈ tbl, e.1 = row.1 ∧
      e.2.2 = row.2.filterMap (lookupAccount m) ∧
      e.2.1 = ((row.2.filterMap (lookupAccount m)).map SummedAccount.sum).sum := by
  unfold rollup at he
  obtain ⟨row, hrow, he2⟩ := List.mem_map.mp he
  refine ⟨row, hrow, ?_⟩
  rw [← he2]
  rw [sumCategory_spec]
  exact ⟨rfl, rfl, rfl⟩

theorem mem_groupingAccounts {data : RealBookkeeping} {m : AccMap} {sa : SummedAccount}
    (h : sa ∈ groupingAccounts (groupingRollup data m)) :
    ∃ x, lookupAccount m x = some sa := by
  unfold groupingAccounts groupingRollup at h
  rcases List.mem_append.mp h with h2 | h2 <;>
  · obtain ⟨l, hl, hsa⟩ := List.mem_flatten.mp h2
    obtain ⟨e, he, hle⟩ := List.mem_map.mp hl
    obtain ⟨row, _, _, hmem, _⟩ := mem_rollup he
    rw [← hle, hmem] at hsa
    obtain ⟨x, _, hx⟩ := List.mem_filterMap.mp hsa
    exact ⟨x, hx⟩

/-- Everything recorded anywhere in a successful result comes from a
well-formed accumulator whose transfers are realized ledger legs: the global
accumulator for the global rollup, a period-local accumulator for a period's
rollup. -/
theorem allSummedAccounts_from_map {data : RealBookkeeping} {res : SummedBookkeeping}
    (h : calculate data = .ok res) :
    ∀ sa ∈ allSummedAccounts res, ∃ m : AccMap, MapWf m ∧
      (∀ A u, u ∈ transfersOf m A → IsLedgerOccTransfer data A u) ∧
      ∃ x, lookupAccount m x = some sa := by
  obtain ⟨Tf, periods, hpg, hres⟩ := calculate_ok_inv h
  intro sa hsa
  rw [hres] at hsa
  unfold allSummedAccounts at hsa
  rcases List.mem_append.mp hsa with h2 | h2
  · refine ⟨Tf, pg_ok_wf hpg MapWf.empty, ?_, mem_groupingAccounts h2⟩
    intro A u hu
    have := (pg_ok_mem hpg A u).mp hu
    rcases this with hm | hocc
    · cases hm
    · exact hocc
  · obtain ⟨l, hl, hsa2⟩ := List.mem_flatten.mp h2
    obtain ⟨p, hp, hlp⟩ := List.mem_map.mp hl
    obtain ⟨tail, htail, hall⟩ := pg_ok_entries hpg MapWf.empty
    rw [htail, List.nil_append] at hp
    obtain ⟨g, hg, loc, _, hwf, _, _, hmem, hent⟩ := forall2_exists_right hall p hp
    rw [hent] at hlp
    rw [← hlp] at hsa2
    refine ⟨loc, hwf, ?_, mem_groupingAccounts hsa2⟩
    intro A u hu
    exact ⟨g, hg, (hmem A u).mp hu⟩

theorem pg_ok_isSome {data : RealBookkeeping} :
    ∀ {gs : List RealGrouping} {T : AccMap} {acc : List (String × SummedGrouping)}
      {Tf : AccMap} {accf : List (String × SummedGrouping)},
      processGroupings data T acc gs = .ok (Tf, accf) →
      ∀ A, (lookupAccount Tf A).isSome ↔
        (lookupAccount T A).isSome ∨ A ∈ groupingsAccounts gs := by
  intro gs
  induction gs with
  | nil =>
    intro T acc Tf accf h A
    simp only [processGroupings, Except.ok.injEq, Prod.mk.injEq] at h
    rw [← h.1]
    simp [groupingsAccounts]
  | cons g rest ih =>
    intro T acc Tf accf h A
    rw [processGroupings_cons] at h
    rcases h0 : processTransactions data.accounts g.name T [] g.transactions
      with e | ⟨T1, loc⟩ <;> rw [h0] at h
    · exact Except.noConfusion h
    · rw [ih h A, (pts_ok_isSome h0 A).1]
      have hacc : A ∈ groupingsAccounts (g :: rest) ↔
          A ∈ legAccounts g.transactions ∨ A ∈ groupingsAccounts rest := by
        simp [groupingsAccounts]
      rw [hacc]
      exact or_assoc

theorem mem_of_mem_enumFrom {α : Type} :
    ∀ {l : List α} {n : Nat} {p : Nat × α}, p ∈ l.enumFrom n → p.2 ∈ l := by
  intro l
  induction l with
  | nil =>
    intro n p hp
    cases hp
  | cons x xs ih =>
    intro n p hp
    simp only [List.enumFrom] at hp
    rcases List.mem_cons.mp hp with he | hm
    · rw [he]
      exact List.mem_cons_self _ _
    · exact List.mem_cons_of_mem _ (ih hm)

/-! ## Claim theorems proved from the toolkit -/

/-- C8: for every ledger whose run succeeds, the output period list has
exactly the input groupings' names, in declaration order (hence also the same
length). -/
theorem c8_period_order {data : RealBookkeeping} {res : SummedBookkeeping}
    (h : calculate data = .ok res) :
    res.groupings.map Prod.fst = data.groupings.map RealGrouping.name := by
  obtain ⟨Tf, periods, hpg, hres⟩ := calculate_ok_inv h
  rw [hres]
  obtain ⟨tail, htail, hall⟩ := pg_ok_entries hpg MapWf.empty
  rw [htail, List.nil_append]
  refine forall2_map_fst (hall.imp ?_)
  rintro g e ⟨loc, _, _, _, _, _, hent⟩
  rw [hent]

/-- C8 witness: the scenario 1 run keeps its single period name. -/
theorem c8_period_order_witness :
    calculate c2data = Except.ok c2expected ∧
      c2expected.groupings.map Prod.fst = c2data.groupings.map RealGrouping.name :=
  ⟨by decide, @c8_period_order c2data c2expected (by decide)⟩

/-- C10: in every successful result, every recorded aggregate's sum is the
exact sum of the amounts of its recorded transfers. -/
theorem c10_sum_is_amounts {data : RealBookkeeping} {res : SummedBookkeeping}
    (h : calculate data = .ok res) :
    ∀ sa ∈ allSummedAccounts res, sa.sum = amountsSum sa.transfers := by
  intro sa hsa
  obtain ⟨m, hwf, _, x, hx⟩ := allSummedAccounts_from_map h sa hsa
  exact (hwf x sa hx).2.2.2

/-- C10 witness: instantiated on scenario 1. -/
theorem c10_sum_is_amounts_witness :
    calculate c2data = Except.ok c2expected ∧
      ∀ sa ∈ allSummedAccounts c2expected, sa.sum = amountsSum sa.transfers :=
  ⟨by decide, @c10_sum_is_amounts c2data c2expected (by decide)⟩

/-- C1: for every ledger whose run succeeds, the run-wide total recorded for
any account equals the sum over the periods, in order, of the total the
period-local accumulator records for that account. -/
theorem c1_additivity {data : RealBookkeeping} {total : AccMap}
    {periods : List (String × SummedGrouping)}
    (h : processGroupings data [] [] data.groupings = .ok (total, periods)) (A : String) :
    sumOf total A = (data.groupings.map (fun g => localTotal data.accounts g A)).sum := by
  have hglob := pg_ok_sumOf h A
  have hz : sumOf ([] : AccMap) A = 0 := rfl
  rw [hz, zero_add] at hglob
  rw [hglob]
  obtain ⟨tail, htail, hall⟩ := pg_ok_entries h MapWf.empty
  unfold groupingsFor
  have hmap : ∀ g ∈ data.groupings,
      localTotal data.accounts g A = txnsFor g.transactions A := by
    intro g hg
    obtain ⟨e, he, loc, hrerun, _, _, hsum, _⟩ := forall2_exists_left hall g hg
    unfold localTotal
    rw [hrerun]
    exact hsum A
  rw [List.map_congr_left (fun g hg => (hmap g hg).symm)]

/-- C1 witness: scenario 1, account `money`. -/
theorem c1_additivity_witness :
    processGroupings c2data [] [] c2data.groupings =
        Except.ok (c2totalMap, [(("Jan"), c2sg)]) ∧
      sumOf c2totalMap ("money") =
        (c2data.groupings.map (fun g => localTotal c2data.accounts g ("money"))).sum :=
  ⟨by decide, @c1_additivity c2data c2totalMap ([(("Jan"), c2sg)]) (by decide) ("money")⟩

/-- C9 (amended): in every successful result, every recorded transfer is the
realized leg of a ledger transaction, and its related transfers are that
transaction's complete leg list — including the very leg the transfer was
realized from. -/
theorem c9_amended {data : RealBookkeeping} {res : SummedBookkeeping}
    (h : calculate data = .ok res) :
    ∀ sa ∈ allSummedAccounts res, ∀ u ∈ sa.transfers,
      ∃ g ∈ data.groupings, ∃ t ∈ g.transactions, ∃ p ∈ t.transfers.enumFrom 0,
        u = legTransfer g.name t p.1 p.2 ∧ u.related_transfers = t.transfers ∧
        p.2 ∈ u.related_transfers := by
  intro sa hsa u hu
  obtain ⟨m, hwf, hprov, x, hx⟩ := allSummedAccounts_from_map h sa hsa
  have hu2 : u ∈ transfersOf m x := by
    rw [transfersOf_eq, hx]
    exact hu
  obtain ⟨g, hg, t, ht, p, hp, hpa, he⟩ := hprov x u hu2
  refine ⟨g, hg, t, ht, p, hp, he, ?_, ?_⟩
  · rw [he]
    rfl
  · rw [he]
    show p.2 ∈ t.transfers
    exact mem_of_mem_enumFrom hp

/-! ## Injectivity of the unique transfer identifier -/

theorem digitsRev_ofRev : ∀ (fuel n : Nat), n ≤ fuel → ofRevDigits (digitsRev fuel n) = n := by
  intro fuel
  induction fuel with
  | zero =>
    intro n hn
    have hz : n = 0 := Nat.le_zero.mp hn
    rw [hz]
    rfl
  | succ f ih =>
    intro n hn
    match n with
    | 0 => rfl
    | k+1 =>
      have hdiv : (k+1) / 10 ≤ f := by omega
      show (Nat.digitChar ((k+1) % 10)).toNat - 48 +
        10 * ofRevDigits (digitsRev f ((k+1)/10)) = k+1
      rw [ih _ hdiv]
      have hm : ((k+1) % 10) < 10 := Nat.mod_lt _ (by omega)
      have hdc : ∀ d < 10, (Nat.digitChar d).toNat - 48 = d := by decide
      rw [hdc _ hm]
      omega

theorem natStr_decode (n : Nat) : ofRevDigits ((natStr n).data.reverse) = n := by
  unfold natStr
  by_cases h : n = 0
  · rw [if_pos h, h]
    rfl
  · rw [if_neg h]
    show ofRevDigits ((digitsRev n n).reverse.reverse) = n
    rw [List.reverse_reverse]
    exact digitsRev_ofRev n n le_rfl

theorem natStr_inj {a b : Nat} (h : natStr a = natStr b) : a = b := by
  calc a = ofRevDigits ((natStr a).data.reverse) := (natStr_decode a).symm
    _ = ofRevDigits ((natStr b).data.reverse) := by rw [h]
    _ = b := natStr_decode b

theorem digitsRev_digits : ∀ (fuel n : Nat), ∀ c ∈ digitsRev fuel n,
    ∃ d, d < 10 ∧ c = Nat.digitChar d := by
  intro fuel
  induction fuel with
  | zero =>
    intro n c hc
    match n with
    | 0 => cases hc
    | k+1 => cases hc
  | succ f ih =>
    intro n c hc
    match n with
    | 0 => cases hc
    | k+1 =>
      have hc2 : c ∈ Nat.digitChar ((k+1) % 10) :: digitsRev f ((k+1)/10) := hc
      rcases List.mem_cons.mp hc2 with he | hm
      · exact ⟨(k+1) % 10, Nat.mod_lt _ (by omega), he⟩
      · exact ih _ c hm

theorem natStr_no_brackets (n : Nat) :
    ∀ c ∈ (natStr n).data, c ≠ Char.ofNat 91 ∧ c ≠ Char.ofNat 93 := by
  unfold natStr
  by_cases h : n = 0
  · rw [if_pos h]
    intro c hc
    have hc2 : c ∈ [Char.ofNat 48] := hc
    rcases List.mem_cons.mp hc2 with he | hm
    · rw [he]
      exact ⟨by decide, by decide⟩
    · cases hm
  · rw [if_neg h]
    intro c hc
    have hc2 : c ∈ (digitsRev n n).reverse := hc
    rw [List.mem_reverse] at hc2
    obtain ⟨d, hd, he⟩ := digitsRev_digits n n c hc2
    rw [he]
    have hall : ∀ d < 10, Nat.digitChar d ≠ Char.ofNat 91 ∧
        Nat.digitChar d ≠ Char.ofNat 93 := by decide
    exact hall d hd

theorem append_cons_inj {c : Char} :
    ∀ {p p2 r r2 : List Char}, c ∉ p → c ∉ p2 →
      p ++ c :: r = p2 ++ c :: r2 → p = p2 ∧ r = r2 := by
  intro p
  induction p with
  | nil =>
    intro p2 r r2 h1 h2 he
    cases p2 with
    | nil =>
      rw [List.nil_append, List.nil_append] at he
      injection he with _ he2
      exact ⟨rfl, he2⟩
    | cons y ys =>
      rw [List.nil_append, List.cons_append] at he
      injection he with he1 he2
      exact absurd (he1 ▸ List.mem_cons_self y ys) h2
  | cons x xs ih =>
    intro p2 r r2 h1 h2 he
    cases p2 with
    | nil =>
      rw [List.nil_append, List.cons_append] at he
      injection he with he1 he2
      exact absurd (he1.symm ▸ List.mem_cons_self x xs) h1
    | cons y ys =>
      rw [List.cons_append, List.cons_append] at he
      injection he with he1 he2
      obtain ⟨hp, hr⟩ := ih (fun hm => h1 (List.mem_cons_of_mem _ hm))
        (fun hm => h2 (List.mem_cons_of_mem _ hm)) he2
      rw [he1, hp, hr]
      exact ⟨rfl, rfl⟩

theorem strData_append (a b : String) : (a ++ b).data = a.data ++ b.data := rfl

theorem strExt {a b : String} (h : a.data = b.data) : a = b := by
  cases a
  cases b
  exact congrArg String.mk h

theorem mkUid_data_rev (g : String) (n m : Nat) :
    (mkUid g n m).data.reverse =
      Char.ofNat 93 :: ((natStr m).data.reverse ++ Char.ofNat 91 :: Char.ofNat 93 ::
        ((natStr n).data.reverse ++ Char.ofNat 91 :: g.data.reverse)) := by
  unfold mkUid
  simp [strData_append, List.reverse_append]

theorem mkUid_inj {g1 g2 : String} {n1 n2 m1 m2 : Nat}
    (h : mkUid g1 n1 m1 = mkUid g2 n2 m2) : g1 = g2 ∧ n1 = n2 ∧ m1 = m2 := by
  have hd : (mkUid g1 n1 m1).data.reverse = (mkUid g2 n2 m2).data.reverse := by rw [h]
  rw [mkUid_data_rev, mkUid_data_rev] at hd
  injection hd with _ hd2
  have hm1 : Char.ofNat 91 ∉ (natStr m1).data.reverse := by
    rw [List.mem_reverse]
    intro hm
    exact (natStr_no_brackets m1 _ hm).1 rfl
  have hm2 : Char.ofNat 91 ∉ (natStr m2).data.reverse := by
    rw [List.mem_reverse]
    intro hm
    exact (natStr_no_brackets m2 _ hm).1 rfl
  obtain ⟨hm, hd3⟩ := append_cons_inj hm1 hm2 hd2
  injection hd3 with _ hd4
  have hn1 : Char.ofNat 91 ∉ (natStr n1).data.reverse := by
    rw [List.mem_reverse]
    intro hm3
    exact (natStr_no_brackets n1 _ hm3).1 rfl
  have hn2 : Char.ofNat 91 ∉ (natStr n2).data.reverse := by
    rw [List.mem_reverse]
    intro hm3
    exact (natStr_no_brackets n2 _ hm3).1 rfl
  obtain ⟨hn, hg⟩ := append_cons_inj hn1 hn2 hd4
  refine ⟨?_, ?_, ?_⟩
  · exact strExt (List.reverse_injective hg)
  · exact natStr_inj (strExt (List.reverse_injective hn))
  · exact natStr_inj (strExt (List.reverse_injective hm))

/-! ## Distinctness of realized transfers -/

theorem enumFrom_le_fst {α : Type} :
    ∀ {l : List α} {n : Nat} {p : Nat × α}, p ∈ l.enumFrom n → n ≤ p.1 := by
  intro l
  induction l with
  | nil =>
    intro n p hp
    cases hp
  | cons x xs ih =>
    intro n p hp
    rcases List.mem_cons.mp hp with he | hm
    · rw [he]
    · exact Nat.le_of_succ_le (ih hm)

theorem enumFrom_getQ {α : Type} :
    ∀ {l : List α} {n : Nat} {p : Nat × α}, p ∈ l.enumFrom n → l[p.1 - n]? = some p.2 := by
  intro l
  induction l with
  | nil =>
    intro n p hp
    cases hp
  | cons x xs ih =>
    intro n p hp
    rcases List.mem_cons.mp hp with he | hm
    · rw [he]
      simp
    · have h1 : n + 1 ≤ p.1 := enumFrom_le_fst hm
      have h2 : p.1 - n = (p.1 - (n + 1)) + 1 := by omega
      rw [h2, List.getElem?_cons_succ]
      exact ih hm

theorem enumFrom_fst_inj {α : Type} {l : List α} {n : Nat} {p1 p2 : Nat × α}
    (h1 : p1 ∈ l.enumFrom n) (h2 : p2 ∈ l.enumFrom n) (he : p1.1 = p2.1) : p1 = p2 := by
  have g1 := enumFrom_getQ h1
  have g2 := enumFrom_getQ h2
  rw [he] at g1
  rw [g1] at g2
  injection g2 with g3
  exact Prod.ext he g3

theorem enumFrom_pairwise_lt {α : Type} :
    ∀ (l : List α) (n : Nat), (l.enumFrom n).Pairwise (fun p q => p.1 < q.1) := by
  intro l
  induction l with
  | nil =>
    intro n
    exact List.Pairwise.nil
  | cons x xs ih =>
    intro n
    refine List.Pairwise.cons ?_ (ih (n+1))
    intro q hq
    exact Nat.lt_of_succ_le (enumFrom_le_fst hq)

theorem idxFrom_le :
    ∀ {ts : List RealTransaction} {k : Nat}, idxFrom k ts = true →
      ∀ t ∈ ts, k ≤ t.index := by
  intro ts
  induction ts with
  | nil =>
    intro k h t ht
    cases ht
  | cons t0 rest ih =>
    intro k h t ht
    simp only [idxFrom, Bool.and_eq_true, decide_eq_true_eq] at h
    rcases List.mem_cons.mp ht with he | hm
    · rw [he, h.1]
    · exact Nat.le_of_succ_le (ih h.2 t hm)

theorem idxFrom_pairwise :
    ∀ {ts : List RealTransaction} {k : Nat}, idxFrom k ts = true →
      ts.Pairwise (fun t1 t2 => t1.index < t2.index) := by
  intro ts
  induction ts with
  | nil =>
    intro k h
    exact List.Pairwise.nil
  | cons t0 rest ih =>
    intro k h
    simp only [idxFrom, Bool.and_eq_true, decide_eq_true_eq] at h
    refine List.Pairwise.cons ?_ (ih h.2)
    intro t2 ht2
    rw [h.1]
    exact Nat.lt_of_succ_le (idxFrom_le h.2 t2 ht2)

theorem idxFrom_inj :
    ∀ {ts : List RealTransaction} {k : Nat}, idxFrom k ts = true →
      ∀ t1 ∈ ts, ∀ t2 ∈ ts, t1.index = t2.index → t1 = t2 := by
  intro ts
  induction ts with
  | nil =>
    intro k h t1 ht1
    cases ht1
  | cons t0 rest ih =>
    intro k h t1 ht1 t2 ht2 he
    simp only [idxFrom, Bool.and_eq_true, decide_eq_true_eq] at h
    rcases List.mem_cons.mp ht1 with he1 | hm1 <;> rcases List.mem_cons.mp ht2 with he2 | hm2
    · rw [he1, he2]
    · exfalso
      have hle := idxFrom_le h.2 t2 hm2
      rw [← he, he1, h.1] at hle
      omega
    · exfalso
      have hle := idxFrom_le h.2 t1 hm1
      rw [he, he2, h.1] at hle
      omega
    · exact ih h.2 t1 hm1 t2 hm2 he

theorem legTransfer_uid (g : String) (t : RealTransaction) (i : Nat) (l : String × ℚ) :
    (legTransfer g t i l).unique_id = mkUid g t.index i := rfl

theorem ne_of_uid_ne {u v : Transfer} (h : u.unique_id ≠ v.unique_id) : u ≠ v :=
  fun he => h (congrArg Transfer.unique_id he)

theorem txnTransfers_pairwise (g : String) (t : RealTransaction) :
    (txnTransfers g t).Pairwise (· ≠ ·) := by
  unfold txnTransfers
  rw [List.pairwise_map]
  refine (enumFrom_pairwise_lt _ _).imp ?_
  intro p q hlt
  refine ne_of_uid_ne ?_
  rw [legTransfer_uid, legTransfer_uid]
  intro he
  have hi := (mkUid_inj he).2.2
  omega

theorem txnsTransfers_pairwise {g : String} {ts : List RealTransaction}
    (hidx : idxFrom 0 ts = true) : (txnsTransfers g ts).Pairwise (· ≠ ·) := by
  unfold txnsTransfers
  rw [List.pairwise_flatten]
  constructor
  · intro l hl
    obtain ⟨t, ht, he⟩ := List.mem_map.mp hl
    rw [← he]
    exact txnTransfers_pairwise g t
  · rw [List.pairwise_map]
    refine (idxFrom_pairwise hidx).imp ?_
    intro t1 t2 hlt u hu v hv
    obtain ⟨p1, hp1, he1⟩ := List.mem_map.mp hu
    obtain ⟨p2, hp2, he2⟩ := List.mem_map.mp hv
    rw [← he1, ← he2]
    refine ne_of_uid_ne ?_
    rw [legTransfer_uid, legTransfer_uid]
    intro he
    have hi := (mkUid_inj he).2.1
    omega

theorem mem_txnsTransfers {g : String} {ts : List RealTransaction} {u : Transfer}
    (hu : u ∈ txnsTransfers g ts) :
    ∃ t ∈ ts, ∃ p ∈ t.transfers.enumFrom 0, u = legTransfer g t p.1 p.2 := by
  unfold txnsTransfers at hu
  obtain ⟨l, hl, hu2⟩ := List.mem_flatten.mp hu
  obtain ⟨t, ht, he⟩ := List.mem_map.mp hl
  rw [← he] at hu2
  obtain ⟨p, hp, he2⟩ := List.mem_map.mp hu2
  exact ⟨t, ht, p, hp, he2.symm⟩

/-- With unique identities, all realized transfers of the ledger are pairwise
distinct. -/
theorem uniqueIds_pairwise {data : RealBookkeeping} (h : UniqueIds data) :
    (ledgerTransfers data).Pairwise (· ≠ ·) := by
  unfold ledgerTransfers
  rw [List.pairwise_flatten]
  constructor
  · intro l hl
    obtain ⟨g, hg, he⟩ := List.mem_map.mp hl
    rw [← he]
    exact txnsTransfers_pairwise (h.2 g hg)
  · rw [List.pairwise_map]
    have hnames : data.groupings.Pairwise (fun g1 g2 => g1.name ≠ g2.name) := by
      have hh := h.1
      rw [List.Nodup, List.pairwise_map] at hh
      exact hh
    refine hnames.imp ?_
    intro g1 g2 hne u hu v hv
    obtain ⟨t1, ht1, p1, hp1, he1⟩ := mem_txnsTransfers hu
    obtain ⟨t2, ht2, p2, hp2, he2⟩ := mem_txnsTransfers hv
    rw [he1, he2]
    refine ne_of_uid_ne ?_
    rw [legTransfer_uid, legTransfer_uid]
    intro he
    exact hne (mkUid_inj he).1

/-- With unique identities, a realized transfer is determined by its unique
id. -/
theorem uniqueIds_uid_inj {data : RealBookkeeping} (h : UniqueIds data)
    {A1 A2 : String} {u v : Transfer}
    (hu : IsLedgerOccTransfer data A1 u) (hv : IsLedgerOccTransfer data A2 v)
    (he : u.unique_id = v.unique_id) : u = v := by
  obtain ⟨g1, hg1, t1, ht1, p1, hp1, hpa1, heu⟩ := hu
  obtain ⟨g2, hg2, t2, ht2, p2, hp2, hpa2, hev⟩ := hv
  rw [heu, hev, legTransfer_uid, legTransfer_uid] at he
  obtain ⟨hgname, hidx, hi⟩ := mkUid_inj he
  have hgeq : g1 = g2 := List.inj_on_of_nodup_map h.1 hg1 hg2 hgname
  subst hgeq
  have hteq : t1 = t2 := idxFrom_inj (h.2 g1 hg1) t1 ht1 t2 ht2 hidx
  subst hteq
  have hpeq : p1 = p2 := enumFrom_fst_inj hp1 hp2 hi
  rw [heu, hev, hpeq]

/-- C6: for every valid ledger, every aggregate anywhere in the result keeps
its transfers strictly ascending in the four-field key
(date, name, amount, unique id). -/
theorem c6_transfers_sorted {data : RealBookkeeping} {res : SummedBookkeeping}
    (hv : ValidLedger data) (h : calculate data = .ok res) :
    ∀ sa ∈ allSummedAccounts res, sa.transfers.Pairwise keyLt := by
  intro sa hsa
  obtain ⟨m, hwf, hprov, x, hx⟩ := allSummedAccounts_from_map h sa hsa
  have hsorted : sa.transfers.Pairwise transferLt := (hwf x sa hx).2.2.1
  have hmm : ∀ u ∈ sa.transfers, u ∈ transfersOf m x := by
    intro u hu
    rw [transfersOf_eq, hx]
    exact hu
  refine List.Pairwise.imp_of_mem ?_ hsorted
  intro u v hu hv2 hlt
  refine keyLt_of_transferLt_of_key_ne hlt ?_
  intro hkey
  have huid : u.unique_id = v.unique_id :=
    congrArg (fun k : Date × String × ℚ × String => k.2.2.2) hkey
  have hueq : u = v := uniqueIds_uid_inj hv.2.2
    (hprov x u (hmm u hu)) (hprov x v (hmm v hv2)) huid
  exact lawful_cmpTransfer.lt_ne hlt hueq

/-- C6 witness: instantiated on scenario 1. -/
theorem c6_transfers_sorted_witness :
    ValidLedger c2data ∧ calculate c2data = Except.ok c2expected ∧
      ∀ sa ∈ allSummedAccounts c2expected, sa.transfers.Pairwise keyLt :=
  ⟨by decide, by decide, @c6_transfers_sorted c2data c2expected (by decide) (by decide)⟩

/-! ## Success implies validity of balances and declarations -/

theorem pg_ok_balanced {data : RealBookkeeping} :
    ∀ {gs : List RealGrouping} {T : AccMap} {acc : List (String × SummedGrouping)}
      {Tf : AccMap} {accf : List (String × SummedGrouping)},
      processGroupings data T acc gs = .ok (Tf, accf) →
      ∀ g ∈ gs, ∀ t ∈ g.transactions, computedSum t.transfers = 0 := by
  intro gs
  induction gs with
  | nil =>
    intro T acc Tf accf h g hg
    cases hg
  | cons g0 rest ih =>
    intro T acc Tf accf h g hg
    rw [processGroupings_cons] at h
    rcases h0 : processTransactions data.accounts g0.name T [] g0.transactions
      with e | ⟨T1, loc⟩ <;> rw [h0] at h
    · exact Except.noConfusion h
    · rcases List.mem_cons.mp hg with he | hm
      · rw [he]
        exact pts_ok_balanced h0
      · exact ih h g hm

theorem pg_ok_declared {data : RealBookkeeping} :
    ∀ {gs : List RealGrouping} {T : AccMap} {acc : List (String × SummedGrouping)}
      {Tf : AccMap} {accf : List (String × SummedGrouping)},
      processGroupings data T acc gs = .ok (Tf, accf) →
      ∀ g ∈ gs, ∀ t ∈ g.transactions, ∀ l ∈ t.transfers, l.1 ∈ data.accounts := by
  intro gs
  induction gs with
  | nil =>
    intro T acc Tf accf h g hg
    cases hg
  | cons g0 rest ih =>
    intro T acc Tf accf h g hg
    rw [processGroupings_cons] at h
    rcases h0 : processTransactions data.accounts g0.name T [] g0.transactions
      with e | ⟨T1, loc⟩ <;> rw [h0] at h
    · exact Except.noConfusion h
    · rcases List.mem_cons.mp hg with he | hm
      · rw [he]
        exact pts_ok_declared h0
      · exact ih h g hm

/-! ## Equal realized transfers come from the same leg -/

/-- Two equal realized transfers were realized from the same leg value: the
related-transfer list pins down the legs and the unique id pins down the leg
index. -/
theorem occ_transfer_eq_leg {g1 g2 : String} {t1 t2 : RealTransaction}
    {p1 p2 : Nat × (String × ℚ)}
    (hp1 : p1 ∈ t1.transfers.enumFrom 0) (hp2 : p2 ∈ t2.transfers.enumFrom 0)
    (he : legTransfer g1 t1 p1.1 p1.2 = legTransfer g2 t2 p2.1 p2.2) : p1.2 = p2.2 := by
  have hrel : t1.transfers = t2.transfers := congrArg Transfer.related_transfers he
  have huid : mkUid g1 t1.index p1.1 = mkUid g2 t2.index p2.1 :=
    congrArg Transfer.unique_id he
  have hi : p1.1 = p2.1 := (mkUid_inj huid).2.2
  have q1 := enumFrom_getQ hp1
  have q2 := enumFrom_getQ hp2
  rw [hrel, hi] at q1
  rw [q1] at q2
  injection q2

/-! ## A successful run never inserted the same transfer twice -/

/-- After a successful leg loop, none of the processed legs' transfers was
already present, at its account, in the initial global accumulator. -/
theorem pl_ok_fresh {decl : List String} {g : String} {t : RealTransaction} :
    ∀ {legs : List (String × ℚ)} {i : Nat} {sum : ℚ} {T L : AccMap}
      {s2 : ℚ} {T2 L2 : AccMap},
      processLegsFrom decl g t i legs sum T L = .ok (s2, T2, L2) → MapWf T →
      ∀ p ∈ legs.enumFrom i, legTransfer g t p.1 p.2 ∉ transfersOf T (p.2.1) := by
  intro legs
  induction legs with
  | nil =>
    intro i sum T L s2 T2 L2 h hwf p hp
    cases hp
  | cons l rest ih =>
    intro i sum T L s2 T2 L2 h hwf p hp
    obtain ⟨a, q⟩ := l
    rw [processLegsFrom_cons] at h
    by_cases hd : a ∈ decl
    · rw [if_pos hd] at h
      rcases h1 : applyLeg T a q (legTransfer g t i (a, q)) with _ | T1 <;> rw [h1] at h
      · exact Except.noConfusion h
      · rcases h2 : applyLeg L a q (legTransfer g t i (a, q)) with _ | L1 <;> rw [h2] at h
        · exact Except.noConfusion h
        · rcases List.mem_cons.mp hp with he | hm
          · rw [he]
            intro hmem
            rw [(applyLeg_none_iff (hwf.sorted a)).mpr hmem] at h1
            exact Option.noConfusion h1
          · intro hmem
            refine ih h (applyLeg_wf hwf h1 rfl) p hm ?_
            rw [applyLeg_mem h1]
            exact Or.inl hmem
    · rw [if_neg hd] at h
      exact Except.noConfusion h

/-- After a successful transaction list, none of its realized transfers was
already present, at its account, in the initial global accumulator. -/
theorem pts_ok_fresh {decl : List String} {g : String} :
    ∀ {ts : List RealTransaction} {T L : AccMap} {T2 L2 : AccMap},
      processTransactions decl g T L ts = .ok (T2, L2) → MapWf T → MapWf L →
      ∀ t ∈ ts, ∀ p ∈ t.transfers.enumFrom 0,
        legTransfer g t p.1 p.2 ∉ transfersOf T (p.2.1) := by
  intro ts
  induction ts with
  | nil =>
    intro T L T2 L2 h hwf hLwf t ht
    cases ht
  | cons t0 rest ih =>
    intro T L T2 L2 h hwf hLwf t ht p hp
    rw [processTransactions_cons] at h
    rcases h0 : processTransaction decl g T L t0 with e | ⟨T1, L1⟩ <;> rw [h0] at h
    · exact Except.noConfusion h
    · rcases List.mem_cons.mp ht with he | hm
      · subst he
        exact pl_ok_fresh (pt_ok_inv h0).1 hwf p hp
      · intro hmem
        obtain ⟨hT1wf, hL1wf⟩ := pt_ok_wf h0 hwf hLwf
        refine ih h hT1wf hL1wf t hm p hp ?_
        rw [(pt_ok_mem h0 (p.2.1) (legTransfer g t p.1 p.2)).1]
        exact Or.inl hmem

/-- After a successful grouping list, none of its realized transfers was
already present, at its account, in the initial global accumulator. -/
theorem pg_ok_fresh {data : RealBookkeeping} :
    ∀ {gs : List RealGrouping} {T : AccMap} {acc : List (String × SummedGrouping)}
      {Tf : AccMap} {accf : List (String × SummedGrouping)},
      processGroupings data T acc gs = .ok (Tf, accf) → MapWf T →
      ∀ g ∈ gs, ∀ t ∈ g.transactions, ∀ p ∈ t.transfers.enumFrom 0,
        legTransfer g.name t p.1 p.2 ∉ transfersOf T (p.2.1) := by
  intro gs
  induction gs with
  | nil =>
    intro T acc Tf accf h hwf g hg
    cases hg
  | cons g0 rest ih =>
    intro T acc Tf accf h hwf g hg t ht p hp
    rw [processGroupings_cons] at h
    rcases h0 : processTransactions data.accounts g0.name T [] g0.transactions
      with e | ⟨T1, loc⟩ <;> rw [h0] at h
    · exact Except.noConfusion h
    · rcases List.mem_cons.mp hg with he | hm
      · subst he
        exact pts_ok_fresh h0 hwf MapWf.empty t ht p hp
      · intro hmem
        refine ih h (pts_ok_wf h0 hwf MapWf.empty).1 g hm t ht p hp ?_
        rw [(pts_ok_mem h0 (p.2.1) (legTransfer g.name t p.1 p.2)).1]
        exact Or.inl hmem

/-- A successful leg loop realized pairwise distinct transfers. -/
theorem pl_ok_distinct {decl : List String} {g : String} {t : RealTransaction} :
    ∀ {legs : List (String × ℚ)} {i : Nat} {sum : ℚ} {T L : AccMap}
      {s2 : ℚ} {T2 L2 : AccMap},
      processLegsFrom decl g t i legs sum T L = .ok (s2, T2, L2) → MapWf T →
      (∀ p ∈ legs.enumFrom i, p ∈ t.transfers.enumFrom 0) →
      (legs.enumFrom i).Pairwise
        (fun p q => legTransfer g t p.1 p.2 ≠ legTransfer g t q.1 q.2) := by
  intro legs
  induction legs with
  | nil =>
    intro i sum T L s2 T2 L2 h hwf hsub
    exact List.Pairwise.nil
  | cons l rest ih =>
    intro i sum T L s2 T2 L2 h hwf hsub
    obtain ⟨a, q⟩ := l
    rw [processLegsFrom_cons] at h
    by_cases hd : a ∈ decl
    · rw [if_pos hd] at h
      rcases h1 : applyLeg T a q (legTransfer g t i (a, q)) with _ | T1 <;> rw [h1] at h
      · exact Except.noConfusion h
      · rcases h2 : applyLeg L a q (legTransfer g t i (a, q)) with _ | L1 <;> rw [h2] at h
        · exact Except.noConfusion h
        · have hT1wf : MapWf T1 := applyLeg_wf hwf h1 rfl
          refine List.Pairwise.cons ?_ (ih h hT1wf (fun p hp =>
            hsub p (List.mem_cons_of_mem _ hp)))
          intro p2 hp2 he
          have hacc : ((a, q) : String × ℚ) = p2.2 :=
            occ_transfer_eq_leg
              (hsub (i, (a, q)) (List.mem_cons_self _ _))
              (hsub p2 (List.mem_cons_of_mem _ hp2)) he
          have hfresh := pl_ok_fresh h hT1wf p2 hp2
          have hin : legTransfer g t i (a, q) ∈ transfersOf T1 a := by
            rw [applyLeg_mem h1]
            exact Or.inr ⟨rfl, rfl⟩
          rw [← he, ← hacc] at hfresh
          exact hfresh hin
    · rw [if_neg hd] at h
      exact Except.noConfusion h

/-- A successful transaction list realized pairwise distinct transfers. -/
theorem pts_ok_distinct {decl : List String} {g : String} :
    ∀ {ts : List RealTransaction} {T L : AccMap} {T2 L2 : AccMap},
      processTransactions decl g T L ts = .ok (T2, L2) → MapWf T → MapWf L →
      (txnsTransfers g ts).Pairwise (· ≠ ·) := by
  intro ts
  induction ts with
  | nil =>
    intro T L T2 L2 h hTwf hLwf
    exact List.Pairwise.nil
  | cons t0 rest ih =>
    intro T L T2 L2 h hTwf hLwf
    rw [txnsTransfers_cons, List.pairwise_append]
    rw [processTransactions_cons] at h
    rcases h0 : processTransaction decl g T L t0 with e | ⟨T1, L1⟩ <;> rw [h0] at h
    · exact Except.noConfusion h
    · obtain ⟨hT1wf, hL1wf⟩ := pt_ok_wf h0 hTwf hLwf
      refine ⟨?_, ih h hT1wf hL1wf, ?_⟩
      · unfold txnTransfers
        rw [List.pairwise_map]
        exact pl_ok_distinct (pt_ok_inv h0).1 hTwf (fun p hp => hp)
      · intro u hu v hv he
        obtain ⟨p, hp, heu⟩ := List.mem_map.mp hu
        obtain ⟨t2, ht2, p2, hp2, hev⟩ := mem_txnsTransfers hv
        rw [← heu, hev] at he
        have hacc : p.2 = p2.2 := occ_transfer_eq_leg hp hp2 he
        have hfresh := pts_ok_fresh h hT1wf hL1wf t2 ht2 p2 hp2
        have hin : legTransfer g t0 p.1 p.2 ∈ transfersOf T1 (p.2.1) := by
          rw [(pt_ok_mem h0 (p.2.1) (legTransfer g t0 p.1 p.2)).1]
          exact Or.inr ⟨p, hp, rfl, rfl⟩
        rw [← he, ← hacc] at hfresh
        exact hfresh hin

/-- A successful grouping list realized pairwise distinct transfers. -/
theorem pg_ok_distinct {data : RealBookkeeping} :
    ∀ {gs : List RealGrouping} {T : AccMap} {acc : List (String × SummedGrouping)}
      {Tf : AccMap} {accf : List (String × SummedGrouping)},
      processGroupings data T acc gs = .ok (Tf, accf) → MapWf T →
      ((gs.map (fun g => txnsTransfers g.name g.transactions)).flatten).Pairwise (· ≠ ·) := by
  intro gs
  induction gs with
  | nil =>
    intro T acc Tf accf h hwf
    exact List.Pairwise.nil
  | cons g0 rest ih =>
    intro T acc Tf accf h hwf
    rw [List.map_cons, List.flatten_cons, List.pairwise_append]
    rw [processGroupings_cons] at h
    rcases h0 : processTransactions data.accounts g0.name T [] g0.transactions
      with e | ⟨T1, loc⟩ <;> rw [h0] at h
    · exact Except.noConfusion h
    · have hT1wf : MapWf T1 := (pts_ok_wf h0 hwf MapWf.empty).1
      refine ⟨pts_ok_distinct h0 hwf MapWf.empty, ih h hT1wf, ?_⟩
      intro u hu v hv he
      obtain ⟨t1, ht1, p1, hp1, heu⟩ := mem_txnsTransfers hu
      obtain ⟨l2, hl2, hv2⟩ := List.mem_flatten.mp hv
      obtain ⟨g2, hg2, hel⟩ := List.mem_map.mp hl2
      rw [← hel] at hv2
      obtain ⟨t2, ht2, p2, hp2, hev⟩ := mem_txnsTransfers hv2
      rw [heu, hev] at he
      have hacc : p1.2 = p2.2 := occ_transfer_eq_leg hp1 hp2 he
      have hfresh := pg_ok_fresh h hT1wf g2 hg2 t2 ht2 p2 hp2
      have hin : legTransfer g0.name t1 p1.1 p1.2 ∈ transfersOf T1 (p1.2.1) := by
        rw [(pts_ok_mem h0 (p1.2.1) (legTransfer g0.name t1 p1.1 p1.2)).1]
        exact Or.inr ⟨t1, ht1, p1, hp1, rfl, rfl⟩
      rw [← he, ← hacc] at hfresh
      exact hfresh hin

/-- A successful run never realized the same transfer value twice. -/
theorem calculate_ok_nodup {data : RealBookkeeping} {res : SummedBookkeeping}
    (h : calculate data = .ok res) : (ledgerTransfers data).Nodup := by
  obtain ⟨Tf, periods, hpg, hres⟩ := calculate_ok_inv h
  exact pg_ok_distinct hpg MapWf.empty

/-! ## Distinct transfers rule out the duplicate abort -/

theorem pl_not_dup {decl : List String} {g : String} {t : RealTransaction} :
    ∀ {legs : List (String × ℚ)} {i : Nat} {sum : ℚ} {T L : AccMap},
      MapWf T → MapWf L →
      (∀ p ∈ legs.enumFrom i, ∀ x, legTransfer g t p.1 p.2 ∉ transfersOf T x) →
      (∀ p ∈ legs.enumFrom i, ∀ x, legTransfer g t p.1 p.2 ∉ transfersOf L x) →
      (legs.enumFrom i).Pairwise
        (fun p p2 => legTransfer g t p.1 p.2 ≠ legTransfer g t p2.1 p2.2) →
      ∀ t2, processLegsFrom decl g t i legs sum T L ≠ .error (.DuplicateTransfer t2) := by
  intro legs
  induction legs with
  | nil =>
    intro i sum T L _ _ _ _ _ t2 he
    exact Except.noConfusion he
  | cons l rest ih =>
    intro i sum T L hTwf hLwf hfT hfL hpw t2 he
    obtain ⟨a, q⟩ := l
    simp only [List.enumFrom] at hfT hfL hpw
    rw [List.pairwise_cons] at hpw
    rw [processLegsFrom_cons] at he
    by_cases hd : a ∈ decl
    · rw [if_pos hd] at he
      rcases h1 : applyLeg T a q (legTransfer g t i (a, q)) with _ | T1 <;> rw [h1] at he
      · exact hfT (i, (a, q)) (List.mem_cons_self _ _) a
          ((applyLeg_none_iff (hTwf.sorted a)).mp h1)
      · rcases h2 : applyLeg L a q (legTransfer g t i (a, q)) with _ | L1 <;> rw [h2] at he
        · exact hfL (i, (a, q)) (List.mem_cons_self _ _) a
            ((applyLeg_none_iff (hLwf.sorted a)).mp h2)
        · refine ih (applyLeg_wf hTwf h1 rfl) (applyLeg_wf hLwf h2 rfl) ?_ ?_ hpw.2 t2 he
          · intro p hp x hmem
            rw [applyLeg_mem h1 x _] at hmem
            rcases hmem with hm | ⟨_, hee⟩
            · exact hfT p (List.mem_cons_of_mem _ hp) x hm
            · exact hpw.1 p hp hee.symm
          · intro p hp x hmem
            rw [applyLeg_mem h2 x _] at hmem
            rcases hmem with hm | ⟨_, hee⟩
            · exact hfL p (List.mem_cons_of_mem _ hp) x hm
            · exact hpw.1 p hp hee.symm
    · rw [if_neg hd] at he
      rw [Except.error.injEq] at he
      exact CalcError.noConfusion he

theorem pt_not_dup {decl : List String} {g : String} {t : RealTransaction}
    {T L : AccMap} (hTwf : MapWf T) (hLwf : MapWf L)
    (hfT : ∀ u ∈ txnTransfers g t, ∀ x, u ∉ transfersOf T x)
    (hfL : ∀ u ∈ txnTransfers g t, ∀ x, u ∉ transfersOf L x)
    (hpw : (txnTransfers g t).Pairwise (· ≠ ·)) :
    ∀ t2, processTransaction decl g T L t ≠ .error (.DuplicateTransfer t2) := by
  intro t2 he
  have hfT2 : ∀ p ∈ t.transfers.enumFrom 0, ∀ x,
      legTransfer g t p.1 p.2 ∉ transfersOf T x := by
    intro p hp x
    exact hfT _ (List.mem_map_of_mem _ hp) x
  have hfL2 : ∀ p ∈ t.transfers.enumFrom 0, ∀ x,
      legTransfer g t p.1 p.2 ∉ transfersOf L x := by
    intro p hp x
    exact hfL _ (List.mem_map_of_mem _ hp) x
  have hpw2 : (t.transfers.enumFrom 0).Pairwise
      (fun p p2 => legTransfer g t p.1 p.2 ≠ legTransfer g t p2.1 p2.2) := by
    rw [txnTransfers, List.pairwise_map] at hpw
    exact hpw
  rcases hpl : processLegsFrom decl g t 0 t.transfers 0 T L with e2 | ⟨s, T2x, L2x⟩
  · rw [processTransaction_of_pl_error hpl, Except.error.injEq] at he
    rw [he] at hpl
    exact pl_not_dup hTwf hLwf hfT2 hfL2 hpw2 t2 hpl
  · rw [processTransaction_of_pl_ok hpl] at he
    by_cases hs : s ≠ 0
    · rw [if_pos hs, Except.error.injEq] at he
      exact CalcError.noConfusion he
    · rw [if_neg hs] at he
      exact Except.noConfusion he

theorem pts_not_dup {decl : List String} {g : String} :
    ∀ {ts : List RealTransaction} {T L : AccMap},
      MapWf T → MapWf L →
      (∀ u ∈ txnsTransfers g ts, ∀ x, u ∉ transfersOf T x) →
      (∀ u ∈ txnsTransfers g ts, ∀ x, u ∉ transfersOf L x) →
      (txnsTransfers g ts).Pairwise (· ≠ ·) →
      ∀ t2, processTransactions decl g T L ts ≠ .error (.DuplicateTransfer t2) := by
  intro ts
  induction ts with
  | nil =>
    intro T L _ _ _ _ _ t2 he
    exact Except.noConfusion he
  | cons t0 rest ih =>
    intro T L hTwf hLwf hfT hfL hpw t2 he
    rw [txnsTransfers_cons] at hfT hfL hpw
    rw [List.pairwise_append] at hpw
    rw [processTransactions_cons] at he
    rcases h0 : processTransaction decl g T L t0 with e | ⟨T1, L1⟩ <;> rw [h0] at he
    · rw [Except.error.injEq] at he
      rw [he] at h0
      exact pt_not_dup hTwf hLwf
        (fun u hu x => hfT u (List.mem_append_left _ hu) x)
        (fun u hu x => hfL u (List.mem_append_left _ hu) x)
        hpw.1 t2 h0
    · obtain ⟨hT1wf, hL1wf⟩ := pt_ok_wf h0 hTwf hLwf
      have hstep : ∀ u ∈ txnsTransfers g rest, ∀ x,
          (u ∉ transfersOf T1 x) ∧ (u ∉ transfersOf L1 x) := by
        intro u hu x
        obtain ⟨hTm, hLm⟩ := pt_ok_mem h0 x u
        constructor
        · rw [hTm]
          rintro (hm | ⟨p, hp, hpa, hee⟩)
          · exact hfT u (List.mem_append_right _ hu) x hm
          · refine hpw.2.2 (legTransfer g t0 p.1 p.2) ?_ u hu hee.symm
            exact List.mem_map_of_mem _ hp
        · rw [hLm]
          rintro (hm | ⟨p, hp, hpa, hee⟩)
          · exact hfL u (List.mem_append_right _ hu) x hm
          · refine hpw.2.2 (legTransfer g t0 p.1 p.2) ?_ u hu hee.symm
            exact List.mem_map_of_mem _ hp
      exact ih hT1wf hL1wf
        (fun u hu x => (hstep u hu x).1)
        (fun u hu x => (hstep u hu x).2)
        hpw.2.1 t2 he

theorem isOcc_mem_txnsTransfers {g : String} {ts : List RealTransaction} {A : String}
    {u : Transfer} (h : IsOccTransfer g ts A u) : u ∈ txnsTransfers g ts := by
  obtain ⟨t, ht, p, hp, hpa, he⟩ := h
  unfold txnsTransfers
  rw [List.mem_flatten]
  refine ⟨txnTransfers g t, List.mem_map_of_mem _ ht, ?_⟩
  rw [he]
  exact List.mem_map_of_mem _ hp

theorem pg_not_dup {data : RealBookkeeping} :
    ∀ {gs : List RealGrouping} {T : AccMap} {acc : List (String × SummedGrouping)},
      MapWf T →
      (∀ u ∈ (gs.map (fun g => txnsTransfers g.name g.transactions)).flatten,
        ∀ x, u ∉ transfersOf T x) →
      ((gs.map (fun g => txnsTransfers g.name g.transactions)).flatten).Pairwise (· ≠ ·) →
      ∀ t2, processGroupings data T acc gs ≠ .error (.DuplicateTransfer t2) := by
  intro gs
  induction gs with
  | nil =>
    intro T acc _ _ _ t2 he
    exact Except.noConfusion he
  | cons g0 rest ih =>
    intro T acc hTwf hfT hpw t2 he
    rw [List.map_cons, List.flatten_cons] at hfT hpw
    rw [List.pairwise_append] at hpw
    rw [processGroupings_cons] at he
    rcases h0 : processTransactions data.accounts g0.name T [] g0.transactions
      with e | ⟨T1, loc⟩ <;> rw [h0] at he
    · rw [Except.error.injEq] at he
      rw [he] at h0
      refine pts_not_dup hTwf MapWf.empty
        (fun u hu x => hfT u (List.mem_append_left _ hu) x)
        (fun u hu x => ?_) hpw.1 t2 h0
      intro hm
      cases hm
    · have hT1wf : MapWf T1 := (pts_ok_wf h0 hTwf MapWf.empty).1
      have hstep : ∀ u ∈ (rest.map
          (fun g => txnsTransfers g.name g.transactions)).flatten, ∀ x,
          u ∉ transfersOf T1 x := by
        intro u hu x hmem
        rw [(pts_ok_mem h0 x u).1] at hmem
        rcases hmem with hm | hocc
        · exact hfT u (List.mem_append_right _ hu) x hm
        · exact hpw.2.2 u (isOcc_mem_txnsTransfers hocc) u hu rfl
      exact ih hT1wf hstep hpw.2.1 t2 he

/-- With pairwise distinct realized transfers — in particular under unique
identities — `calculate` can never abort with `DuplicateTransfer`. -/
theorem calculate_not_dup {data : RealBookkeeping}
    (hpw : (ledgerTransfers data).Pairwise (· ≠ ·)) :
    ∀ t2, calculate data ≠ .error (.DuplicateTransfer t2) := by
  intro t2 he
  have hpg := calculate_error_inv he
  refine pg_not_dup MapWf.empty (fun u hu x hm => ?_) hpw t2 hpg
  cases hm

/-- C4 (amended): for every ledger with unique transfer identities and all
leg accounts declared that contains a transaction whose legs do not sum to
zero, `calculate` fails with `UnbalancedTransaction` identifying such a
transaction and its computed sum, and no result is produced. -/
theorem c4_amended {data : RealBookkeeping}
    (hu : UniqueIds data) (hdecl : LegsDeclared data)
    (hx : ∃ g ∈ data.groupings, ∃ t ∈ g.transactions, computedSum t.transfers ≠ 0) :
    ∃ g ∈ data.groupings, ∃ t ∈ g.transactions, computedSum t.transfers ≠ 0 ∧
      calculate data = .error (.UnbalancedTransaction t.name (computedSum t.transfers)) := by
  rcases hres : calculate data with e | res
  · have hpg := calculate_error_inv hres
    obtain ⟨g, hg, t, ht, hsh⟩ := pg_error hpg
    rcases hsh with ⟨l, hl, hndl, he⟩ | he | ⟨hnz, he⟩
    · exact absurd (hdecl g hg t ht l hl) hndl
    · exfalso
      rw [he] at hres
      exact calculate_not_dup (uniqueIds_pairwise hu) t hres
    · refine ⟨g, hg, t, ht, hnz, ?_⟩
      rw [he]
  · exfalso
    obtain ⟨g, hg, t, ht, hnz⟩ := hx
    obtain ⟨Tf, periods, hpg, _⟩ := calculate_ok_inv hres
    exact hnz (pg_ok_balanced hpg g hg t ht)

/-- C4 witness: a declared, unique-identity ledger whose single transaction
sums to 5. -/
theorem c4_amended_witness :
    UniqueIds c4okdata ∧ LegsDeclared c4okdata ∧
      (∃ g ∈ c4okdata.groupings, ∃ t ∈ g.transactions, computedSum t.transfers ≠ 0) ∧
      ∃ g ∈ c4okdata.groupings, ∃ t ∈ g.transactions, computedSum t.transfers ≠ 0 ∧
        calculate c4okdata =
          Except.error (CalcError.UnbalancedTransaction t.name (computedSum t.transfers)) :=
  ⟨by decide, by decide, by decide, c4_amended (by decide) (by decide) (by decide)⟩

/-- C5 (amended): for every ledger with unique transfer identities whose
transactions all balance, containing a leg that names an undeclared account,
`calculate` fails with `UndeclaredAccount` identifying such a transaction and
account, and no result is produced. -/
theorem c5_amended {data : RealBookkeeping}
    (hu : UniqueIds data) (hbal : AllBalanced data)
    (hx : ∃ g ∈ data.groupings, ∃ t ∈ g.transactions, ∃ l ∈ t.transfers,
      l.1 ∉ data.accounts) :
    ∃ g ∈ data.groupings, ∃ t ∈ g.transactions, ∃ l ∈ t.transfers,
      l.1 ∉ data.accounts ∧
        calculate data = .error (.UndeclaredAccount t.name l.1) := by
  rcases hres : calculate data with e | res
  · have hpg := calculate_error_inv hres
    obtain ⟨g, hg, t, ht, hsh⟩ := pg_error hpg
    rcases hsh with ⟨l, hl, hndl, he⟩ | he | ⟨hnz, he⟩
    · refine ⟨g, hg, t, ht, l, hl, hndl, ?_⟩
      rw [he]
    · exfalso
      rw [he] at hres
      exact calculate_not_dup (uniqueIds_pairwise hu) t hres
    · exact absurd (hbal g hg t ht) hnz
  · exfalso
    obtain ⟨g, hg, t, ht, l, hl, hnd⟩ := hx
    obtain ⟨Tf, periods, hpg, _⟩ := calculate_ok_inv hres
    exact hnd (pg_ok_declared hpg g hg t ht l hl)

/-- C5 witness: a balanced unique-identity ledger whose transaction names the
undeclared account `x`. -/
theorem c5_amended_witness :
    UniqueIds c5okdata ∧ AllBalanced c5okdata ∧
      (∃ g ∈ c5okdata.groupings, ∃ t ∈ g.transactions, ∃ l ∈ t.transfers,
        l.1 ∉ c5okdata.accounts) ∧
      ∃ g ∈ c5okdata.groupings, ∃ t ∈ g.transactions, ∃ l ∈ t.transfers,
        l.1 ∉ c5okdata.accounts ∧
          calculate c5okdata = Except.error (CalcError.UndeclaredAccount t.name l.1) :=
  ⟨by decide, by decide, by decide, c5_amended (by decide) (by decide) (by decide)⟩

/-- C7 (amended): duplicate detection compares whole transfers.  For every
balanced, declared ledger that would realize the same transfer value twice,
`calculate` fails with a `DuplicateTransfer` error; and in every returned
result no two transfers with identical full equality coexist in one account's
set. -/
theorem c7_amended (data : RealBookkeeping) :
    (AllBalanced data → LegsDeclared data → ¬ (ledgerTransfers data).Nodup →
      ∃ t, calculate data = .error (.DuplicateTransfer t)) ∧
    (∀ res, calculate data = .ok res →
      ∀ sa ∈ allSummedAccounts res, sa.transfers.Nodup) := by
  constructor
  · intro hbal hdecl hnd
    rcases hres : calculate data with e | res
    · have hpg := calculate_error_inv hres
      obtain ⟨g, hg, t, ht, hsh⟩ := pg_error hpg
      rcases hsh with ⟨l, hl, hndl, he⟩ | he | ⟨hnz, he⟩
      · exact absurd (hdecl g hg t ht l hl) hndl
      · refine ⟨t, ?_⟩
        rw [he]
      · exact absurd (hbal g hg t ht) hnz
    · exact absurd (calculate_ok_nodup hres) hnd
  · intro res hres sa hsa
    obtain ⟨m, hwf, _, x, hx⟩ := allSummedAccounts_from_map hres sa hsa
    have hsort := (hwf x sa hx).2.2.1
    exact hsort.imp (fun hlt => lawful_cmpTransfer.lt_ne hlt)

/-- C7 witness: a balanced, declared ledger repeating one transaction with
the same index aborts with `DuplicateTransfer`. -/
theorem c7_amended_witness :
    AllBalanced c7dupdata ∧ LegsDeclared c7dupdata ∧
      ¬ (ledgerTransfers c7dupdata).Nodup ∧
      ∃ t, calculate c7dupdata = Except.error (CalcError.DuplicateTransfer t) :=
  ⟨by decide, by decide, by decide,
    (c7_amended c7dupdata).1 (by decide) (by decide) (by decide)⟩

/-! ## Soundness of the category rollups -/

theorem filterMap_names {m : AccMap} (hwf : MapWf m) {act : List String}
    (hact : ∀ A, (lookupAccount m A).isSome ↔ A ∈ act) :
    ∀ accts : List String,
      (accts.filterMap (lookupAccount m)).map SummedAccount.name =
        accts.filter (fun a => decide (a ∈ act)) := by
  intro accts
  induction accts with
  | nil => rfl
  | cons a rest ih =>
    rw [List.filterMap_cons, List.filter_cons]
    rcases hl : lookupAccount m a with _ | sa
    · have hna : a ∉ act := by
        rw [← hact a, hl]
        simp

      rw [if_neg (by simpa using hna)]
      exact ih
    · have hina : a ∈ act := by
        rw [← hact a, hl]
        simp
      rw [if_pos (by simpa using hina), List.map_cons, (hwf a sa hl).1, ih]

theorem forall2_map_self {α β : Type} {R : β → α → Prop} {f : α → β} :
    ∀ {l : List α}, (∀ row ∈ l, R (f row) row) → List.Forall₂ R (l.map f) l := by
  intro l
  induction l with
  | nil =>
    intro _
    exact List.Forall₂.nil
  | cons x xs ih =>
    intro h
    exact List.Forall₂.cons (h x (List.mem_cons_self _ _))
      (ih (fun row hr => h row (List.mem_cons_of_mem _ hr)))

/-- A rollup over a well-formed accumulator whose present accounts are
exactly the active accounts of the scope is sound for every declared
category. -/
theorem rollup_sound {α : Type} {m : AccMap} (hwf : MapWf m) {act : List String}
    (hact : ∀ A, (lookupAccount m A).isSome ↔ A ∈ act)
    (tbl : List (α × List String)) :
    List.Forall₂ (EntrySound act) (rollup m tbl) tbl := by
  unfold rollup
  refine forall2_map_self ?_
  intro row hrow
  refine ⟨rfl, ?_, ?_⟩
  · rw [sumCategory_spec]
  · show (sumCategory m row.2).2.map SummedAccount.name = _
    rw [sumCategory_spec]
    exact filterMap_names hwf hact row.2

/-- C3: in every successful run, every category entry — account-type or
named account-sum, in the global rollup or in any period's rollup — carries
a total equal to the sum of its listed members' totals, and lists exactly the
declared member accounts with activity in that scope, omitting inactive
declared members. -/
theorem c3_rollups {data : RealBookkeeping} {res : SummedBookkeeping}
    (h : calculate data = .ok res) :
    ScopeSound data (ledgerAccounts data) res.total ∧
      List.Forall₂ (fun (g : RealGrouping) (p : String × SummedGrouping) =>
        ScopeSound data (legAccounts g.transactions) p.2) data.groupings res.groupings := by
  obtain ⟨Tf, periods, hpg, hres⟩ := calculate_ok_inv h
  have hTwf : MapWf Tf := pg_ok_wf hpg MapWf.empty
  have hTact : ∀ A, (lookupAccount Tf A).isSome ↔ A ∈ ledgerAccounts data := by
    intro A
    rw [pg_ok_isSome hpg A]
    have hz : (lookupAccount ([] : AccMap) A).isSome = false := rfl
    rw [hz]
    simp [ledgerAccounts]
  constructor
  · rw [hres]
    exact ⟨rollup_sound hTwf hTact data.account_types,
      rollup_sound hTwf hTact data.account_sums⟩
  · rw [hres]
    obtain ⟨tail, htail, hall⟩ := pg_ok_entries hpg MapWf.empty
    rw [htail, List.nil_append]
    refine hall.imp ?_
    rintro g e ⟨loc, _, hwf, hact, _, _, hent⟩
    rw [hent]
    exact ⟨rollup_sound hwf hact data.account_types,
      rollup_sound hwf hact data.account_sums⟩

/-- C3 witness: instantiated on scenario 1. -/
theorem c3_rollups_witness :
    calculate c2data = Except.ok c2expected ∧
      (ScopeSound c2data (ledgerAccounts c2data) c2expected.total ∧
        List.Forall₂ (fun (g : RealGrouping) (p : String × SummedGrouping) =>
          ScopeSound c2data (legAccounts g.transactions) p.2)
          c2data.groupings c2expected.groupings) :=
  ⟨by decide, @c3_rollups c2data c2expected (by decide)⟩

/-- C9 witness: instantiated on scenario 1. -/
theorem c9_amended_witness :
    calculate c2data = Except.ok c2expected ∧
      ∀ sa ∈ allSummedAccounts c2expected, ∀ u ∈ sa.transfers,
        ∃ g ∈ c2data.groupings, ∃ t ∈ g.transactions, ∃ p ∈ t.transfers.enumFrom 0,
          u = legTransfer g.name t p.1 p.2 ∧ u.related_transfers = t.transfers ∧
          p.2 ∈ u.related_transfers :=
  ⟨by decide, @c9_amended c2data c2expected (by decide)⟩

end Bookkeep
